import Mathlib

/-!
Verification development for the compression / texture-decoding core of the
`armaio` library.

The Lean definitions below are shallow embeddings of the Python source:

* `src/armaio/compression.py` — the LZO1X byte-stream decompressor
  (`lzo1x_decompress` with its inner helpers `check_free_space`,
  `copy_match`, `get_length`) and the stream-based DXT1/DXT5 texture
  decoders (`dxt1_decompress`, `dxt5_decompress`);
* `src/armaio/paa/_encoding.py` — the buffer-based DXT1/DXT5 texture
  decoders (`decode_dxt1`, `decode_dxt5`).

Byte streams are modelled as `List Nat` consumed from the front; Python
exceptions are modelled with `Except String` (or dedicated result types);
Python float arithmetic on texel channels is modelled over `ℚ`; Python's
negative-index slicing semantics on `bytearray` is modelled explicitly by
`pyIdx`/`pySlice`.
-/

namespace Armaio

/-! ## Python slicing semantics

`bytearray` slices `buf[s:t]` clamp the endpoints: a negative index is taken
relative to the end of the buffer (and clamped to 0), a positive index is
clamped to the length.  `copy_match` in `compression.py` computes
`start = len(output) - distance`, which can be negative, so the embedding
has to reproduce these semantics exactly. -/

/-- Effective index of the Python slice endpoint `v` for a buffer of length
`len`: negative values count from the end (clamped to 0), non-negative
values are clamped to `len`. -/
def pyIdx (len : Nat) (v : Int) : Nat :=
  if v < 0 then ((len : Int) + v).toNat else min len v.toNat

/-- Python slice `l[s:t]` with full clamping semantics. -/
def pySlice (l : List Nat) (s t : Int) : List Nat :=
  let a := pyIdx l.length s
  let b := pyIdx l.length t
  (l.drop a).take (b - a)

/-! ## LZO1X decompressor (`lzo1x_decompress` in `compression.py`) -/

/-- `check_free_space` + `copy_match` from `lzo1x_decompress`.

Mirrors the Python inner function: first `check_free_space(length)`
(`expected_length - len(output) < length` raises), then
`output.extend(output[start:] * (length // distance))` followed by
`output.extend(output[start:(start + (length % distance))])` with
`start = len(output) - distance` computed on the original buffer (the second
slice is evaluated on the already-grown buffer, as in the source).  A zero
distance is a `ZeroDivisionError` in Python and is modelled as an error
(no caller passes it). -/
def copy_match (expected : Nat) (output : List Nat) (distance length : Nat) :
    Except String (List Nat) :=
  if (expected : Int) - (output.length : Int) < (length : Int) then
    .error "LZO - Output overrun"
  else if distance = 0 then
    .error "LZO - zero distance division"
  else
    let start : Int := (output.length : Int) - (distance : Int)
    let chunk := pySlice output start (output.length : Int)
    let out1 := output ++ (List.replicate (length / distance) chunk).flatten
    .ok (out1 ++ pySlice out1 start (start + ((length % distance : Nat) : Int)))

/-- Extension loop of `get_length`: reads escape bytes one at a time, each
zero byte adds 255, a nonzero byte `b` terminates contributing `b`. -/
def get_length_go : List Nat → Nat → Option (Nat × List Nat)
  | [], _ => none
  | b :: rest, acc => if b = 0 then get_length_go rest (acc + 255) else some (acc + b, rest)

/-- `get_length(x, mask)` from `lzo1x_decompress`: returns `x & mask` when
nonzero, otherwise reads the escaped extension (each all-zero byte worth
+255, terminated by a nonzero byte `b`) and returns `mask + 255*k + b`.
`none` models the `IndexError` on a truncated stream. -/
def get_length (x mask : Nat) (input : List Nat) : Option (Nat × List Nat) :=
  if x &&& mask = 0 then
    match get_length_go input 0 with
    | none => none
    | some (acc, rest) => some (mask + acc, rest)
  else
    some (x &&& mask, input)

/-- `struct.Struct('<H').unpack(stream.read(2))`: two bytes, little endian.
`none` models the `struct.error` on a truncated stream. -/
def read_le16 : List Nat → Option (Nat × List Nat)
  | a :: b :: rest => some (a + (b <<< 8), rest)
  | _ => none

/-- Result of one iteration of the `while True` loop body of
`lzo1x_decompress`: a fatal error, the end-of-stream break (carrying the
final output and the remaining input), or continuation with the updated
running state, output and input. -/
inductive StepRes where
  | err (msg : String)
  | done (output remaining : List Nat)
  | cont (state : Nat) (output remaining : List Nat)
  deriving DecidableEq

/-- Common tail of every match branch of the loop body:
`copy_match(distance, length)`, then `check_free_space(state)`, then
`output.extend(stream.read(state))` (a short read is not an error in
Python). -/
def matchTail (expected : Nat) (output : List Nat) (distance length st : Nat)
    (input : List Nat) : StepRes :=
  match copy_match expected output distance length with
  | .error m => .err m
  | .ok out1 =>
    if (expected : Int) - (out1.length : Int) < (st : Int) then
      .err "LZO - Output overrun"
    else
      .cont st (out1 ++ input.take st) (input.drop st)

/-- One iteration of the `while True` loop body of `lzo1x_decompress`,
given the already-read command byte `x` and the carried 2-bit state. -/
def lzoStep (expected x st : Nat) (output input : List Nat) : StepRes :=
  if x ≤ 15 then
    if st = 0 then
      match get_length x 15 input with
      | none => .err "LZO - truncated stream (literal length)"
      | some (gl, inp1) =>
        let length := 3 + gl
        if (expected : Int) - (output.length : Int) < (length : Int) then
          .err "LZO - Output overrun"
        else
          .cont 4 (output ++ inp1.take length) (inp1.drop length)
    else if st < 4 then
      match input with
      | [] => .err "LZO - truncated stream (distance byte)"
      | d :: inp1 =>
        matchTail expected output ((d <<< 2) + (x >>> 2) + 1) 2 (x &&& 3) inp1
    else if st = 4 then
      match input with
      | [] => .err "LZO - truncated stream (distance byte)"
      | d :: inp1 =>
        matchTail expected output ((d <<< 2) + (x >>> 2) + 2049) 3 (x &&& 3) inp1
    else
      -- states above 4 never occur; the Python elif chain would fall through
      .cont st output input
  else if 127 < x then
    match input with
    | [] => .err "LZO - truncated stream (distance byte)"
    | d :: inp1 =>
      matchTail expected output ((d <<< 3) + ((x >>> 2) &&& 7) + 1)
        (5 + ((x >>> 5) &&& 3)) (x &&& 3) inp1
  else if 63 < x then
    match input with
    | [] => .err "LZO - truncated stream (distance byte)"
    | d :: inp1 =>
      matchTail expected output ((d <<< 3) + ((x >>> 2) &&& 7) + 1)
        (3 + ((x >>> 5) &&& 1)) (x &&& 3) inp1
  else if 31 < x then
    match get_length x 31 input with
    | none => .err "LZO - truncated stream (match length)"
    | some (gl, inp1) =>
      match read_le16 inp1 with
      | none => .err "LZO - truncated stream (distance word)"
      | some (extra, inp2) =>
        matchTail expected output ((extra >>> 2) + 1) (2 + gl) (extra &&& 3) inp2
  else
    match get_length x 7 input with
    | none => .err "LZO - truncated stream (match length)"
    | some (gl, inp1) =>
      match read_le16 inp1 with
      | none => .err "LZO - truncated stream (distance word)"
      | some (extra, inp2) =>
        let distance := 16384 + ((x &&& 8) <<< 11) + (extra >>> 2)
        if distance = 16384 then
          if 2 + gl ≠ 3 then .err "LZO - Invalid End Of Stream"
          else .done output inp2
        else
          matchTail expected output distance (2 + gl) (extra &&& 3) inp2

/-- Overall result of the fueled LZO main loop: normal break (output and
remaining input), error, or fuel exhaustion (`diverge`, proved unreachable
for sufficient fuel). -/
inductive LzoOut where
  | ok (output remaining : List Nat)
  | err (msg : String)
  | diverge
  deriving DecidableEq

/-- The `while True` loop of `lzo1x_decompress`: run one step; on
continuation, read the next command byte and recurse.  Fueled; each
successful iteration consumes at least the trailing command-byte read, so
fuel `input.length + 1` always suffices. -/
def lzoLoop (expected : Nat) : Nat → Nat → Nat → List Nat → List Nat → LzoOut
  | 0, _, _, _, _ => .diverge
  | fuel + 1, x, st, output, input =>
    match lzoStep expected x st output input with
    | .err m => .err m
    | .done o r => .ok o r
    | .cont st1 out1 inp1 =>
      match inp1 with
      | [] => .err "LZO - truncated stream (command byte)"
      | x1 :: rest => lzoLoop expected fuel x1 st1 out1 rest

/-- `lzo1x_decompress` up to (and excluding) the final length check: the
special-cased first command byte (an unconditional literal run when
`x > 17`), then the main loop. -/
def lzo1x_run (fuel : Nat) (input : List Nat) (expected : Nat) : LzoOut :=
  match input with
  | [] => .err "LZO - truncated stream (first byte)"
  | x :: rest =>
    if 17 < x then
      let length := x - 17
      if (expected : Int) < (length : Int) then .err "LZO - Output overrun"
      else
        match rest.drop length with
        | [] => .err "LZO - truncated stream (command byte)"
        | x1 :: rest1 => lzoLoop expected fuel x1 (min 4 length) (rest.take length) rest1
    else
      lzoLoop expected fuel x 0 [] rest

/-- `lzo1x_decompress(stream, expected_length)`: returns the number of
consumed input bytes and the decompressed output, or an error.  After the
loop, `if expected_length - len(output): raise` rejects any output whose
length differs from `expected_length`. -/
def lzo1x_decompress (input : List Nat) (expected : Nat) :
    Except String (Nat × List Nat) :=
  match lzo1x_run (input.length + 1) input expected with
  | .ok out rem =>
    if (expected : Int) - (out.length : Int) ≠ 0 then
      .error "LZO - Stream provided shorter output than expected"
    else
      .ok (input.length - rem.length, out)
  | .err m => .error m
  | .diverge => .error "unreachable"

/-- Ghost observer for `lzoStep`: the backreference distance that the step
decodes and passes to `copy_match`, when the command byte `x` (with carried
state `st` and remaining input) is a match command that actually performs a
copy; `none` for literal runs, truncation errors and the end-of-stream
sentinel.  The branch structure and distance formulas mirror `lzoStep`. -/
def lzoStepMatch (x st : Nat) (input : List Nat) : Option Nat :=
  if x ≤ 15 then
    if st = 0 then none
    else if st < 4 then
      match input with
      | [] => none
      | d :: _ => some ((d <<< 2) + (x >>> 2) + 1)
    else if st = 4 then
      match input with
      | [] => none
      | d :: _ => some ((d <<< 2) + (x >>> 2) + 2049)
    else none
  else if 127 < x then
    match input with
    | [] => none
    | d :: _ => some ((d <<< 3) + ((x >>> 2) &&& 7) + 1)
  else if 63 < x then
    match input with
    | [] => none
    | d :: _ => some ((d <<< 3) + ((x >>> 2) &&& 7) + 1)
  else if 31 < x then
    match get_length x 31 input with
    | none => none
    | some (_, inp1) =>
      match read_le16 inp1 with
      | none => none
      | some (extra, _) => some ((extra >>> 2) + 1)
  else
    match get_length x 7 input with
    | none => none
    | some (_, inp1) =>
      match read_le16 inp1 with
      | none => none
      | some (extra, _) =>
        let distance := 16384 + ((x &&& 8) <<< 11) + (extra >>> 2)
        if distance = 16384 then none else some distance

/-! ## Reference (incremental) overlapped copy

The specification describes the byte-by-byte reference semantics of a
backreference copy: `length` times, append `output[len(output) - distance]`
to the growing buffer. -/

/-- Incremental reference copy: perform `n` single-byte steps, each
appending the byte `distance` positions behind the current end of the
buffer. -/
def incCopy (distance : Nat) (output : List Nat) : Nat → List Nat
  | 0 => output
  | n + 1 =>
    let o := incCopy distance output n
    o ++ [o.getD (o.length - distance) 0]

/-- First `n` bytes of the infinite periodic repetition of `chunk`. -/
def tile (chunk : List Nat) (n : Nat) : List Nat :=
  (List.range n).map (fun i => chunk.getD (i % chunk.length) 0)

/-! ## Basic lemmas on python slices and tiling -/

theorem pySlice_length_le (l : List Nat) (s t : Int) (hst : s ≤ t) :
    (pySlice l s t).length ≤ (t - s).toNat := by
  unfold pySlice pyIdx
  simp only [List.length_take, List.length_drop]
  split <;> split <;> omega

theorem pySlice_nonneg (l : List Nat) (s t : Nat) (hs : s ≤ t) (ht : t ≤ l.length) :
    pySlice l (s : Int) (t : Int) = (l.drop s).take (t - s) := by
  have ha : pyIdx l.length (s : Int) = s := by unfold pyIdx; split <;> omega
  have hb : pyIdx l.length (t : Int) = t := by unfold pyIdx; split <;> omega
  unfold pySlice
  rw [ha, hb]

theorem tile_length (c : List Nat) (n : Nat) : (tile c n).length = n := by
  simp [tile]

theorem tile_getD (c : List Nat) {i n : Nat} (h : i < n) :
    (tile c n).getD i 0 = c.getD (i % c.length) 0 := by
  rw [List.getD_eq_getElem _ _ (by simpa [tile_length] using h)]
  simp [tile]

theorem tile_succ (c : List Nat) (n : Nat) :
    tile c (n + 1) = tile c n ++ [c.getD (n % c.length) 0] := by
  simp [tile, List.range_succ]

theorem take_eq_tile (c : List Nat) {r : Nat} (h : r ≤ c.length) :
    c.take r = tile c r := by
  apply List.ext_getElem
  · simp [tile_length]; omega
  · intro n h1 h2
    simp only [List.length_take] at h1
    rw [List.getElem_take]
    simp only [tile, List.getElem_map, List.getElem_range]
    rw [Nat.mod_eq_of_lt (by omega)]
    exact (List.getD_eq_getElem c 0 (by omega)).symm

theorem tile_add (c : List Nat) (m : Nat) :
    tile c (c.length + m) = c ++ tile c m := by
  unfold tile
  rw [List.range_add, List.map_append, List.map_map]
  congr 1
  · rw [List.map_congr_left (g := fun i => c.getD i 0)
      (fun i hi => by rw [Nat.mod_eq_of_lt (List.mem_range.mp hi)])]
    apply List.ext_getElem
    · simp
    · intro n h1 h2
      simp only [List.getElem_map, List.getElem_range]
      exact List.getD_eq_getElem c 0 _
  · apply List.map_congr_left
    intro i _
    simp only [Function.comp_apply]
    rw [Nat.add_mod_left]

theorem flatten_replicate_take (c : List Nat) (q : Nat) {r : Nat}
    (hr : r ≤ c.length) :
    (List.replicate q c).flatten ++ c.take r = tile c (c.length * q + r) := by
  induction q with
  | zero => simpa using take_eq_tile c hr
  | succ n ih =>
    rw [List.replicate_succ, List.flatten_cons, List.append_assoc, ih]
    have : c.length * (n + 1) + r = c.length + (c.length * n + r) := by ring
    rw [this, tile_add c]

theorem incCopy_eq_tile (d : Nat) (out : List Nat) (h1 : 1 ≤ d)
    (h2 : d ≤ out.length) (n : Nat) :
    incCopy d out n = out ++ tile (out.drop (out.length - d)) n := by
  have hcl : (out.drop (out.length - d)).length = d := by
    rw [List.length_drop]; omega
  induction n with
  | zero => simp [incCopy, tile]
  | succ n ih =>
    have hstep : incCopy d out (n + 1)
        = incCopy d out n
          ++ [(incCopy d out n).getD ((incCopy d out n).length - d) 0] := rfl
    rw [hstep, ih]
    have hlen : (out ++ tile (out.drop (out.length - d)) n).length = out.length + n := by
      rw [List.length_append, tile_length]
    rw [hlen]
    have hget : (out ++ tile (out.drop (out.length - d)) n).getD (out.length + n - d) 0
        = (out.drop (out.length - d)).getD (n % d) 0 := by
      rcases Nat.lt_or_ge n d with hnd | hnd
      · -- the source byte still lies in the original buffer
        rw [List.getD_append _ _ _ _ (by omega)]
        rw [Nat.mod_eq_of_lt hnd]
        rw [List.getD_eq_getElem?_getD, List.getD_eq_getElem?_getD, List.getElem?_drop,
          show out.length - d + n = out.length + n - d from by omega]
      · -- the source byte was produced by an earlier step of this same copy
        rw [List.getD_append_right out (tile (out.drop (out.length - d)) n) 0
          (out.length + n - d) (by omega)]
        rw [show out.length + n - d - out.length = n - d from by omega]
        rw [tile_getD _ (show n - d < n from by omega), hcl]
        congr 1
        conv_rhs => rw [show n = d + (n - d) from by omega, Nat.add_mod_left]
    rw [hget, List.append_assoc]
    congr 1
    rw [tile_succ, hcl]

/-- CLAIM-SUPPORT: the chunked `copy_match` appends exactly the tiled
pattern, hence agrees with the byte-by-byte incremental reference copy. -/
theorem copy_match_spec (expected : Nat) (out : List Nat) (d l : Nat)
    (h1 : 1 ≤ d) (h2 : d ≤ out.length) (h3 : out.length + l ≤ expected) :
    copy_match expected out d l = .ok (incCopy d out l) := by
  have hcl : (out.drop (out.length - d)).length = d := by
    rw [List.length_drop]; omega
  have hrd : l % d < d := Nat.mod_lt l (by omega)
  have hchunk : pySlice out ((out.length : Int) - (d : Int)) ((out.length : Nat) : Int)
      = out.drop (out.length - d) := by
    rw [show ((out.length : Int) - (d : Int)) = ((out.length - d : Nat) : Int) from by omega]
    rw [pySlice_nonneg out (out.length - d) out.length (by omega) (by omega)]
    rw [show out.length - (out.length - d) = d from by omega]
    exact List.take_of_length_le (by omega)
  have hflat : ((List.replicate (l / d) (out.drop (out.length - d))).flatten).length
      = l / d * d := by
    simp [List.length_flatten, List.map_replicate, List.sum_replicate, smul_eq_mul, hcl]
  have hrem : pySlice
      (out ++ (List.replicate (l / d) (out.drop (out.length - d))).flatten)
      ((out.length : Int) - (d : Int))
      (((out.length : Int) - (d : Int)) + ((l % d : Nat) : Int))
      = (out.drop (out.length - d)).take (l % d) := by
    rw [show ((out.length : Int) - (d : Int)) = ((out.length - d : Nat) : Int) from by omega]
    rw [show ((out.length - d : Nat) : Int) + ((l % d : Nat) : Int)
        = ((out.length - d + l % d : Nat) : Int) from by omega]
    rw [pySlice_nonneg _ (out.length - d) (out.length - d + l % d) (by omega)
      (by rw [List.length_append, hflat]; omega)]
    rw [List.drop_append_of_le_length (by omega)]
    rw [show out.length - d + l % d - (out.length - d) = l % d from by omega]
    exact List.take_append_of_le_length (by omega)
  have key : out ++ (List.replicate (l / d) (out.drop (out.length - d))).flatten
      ++ pySlice (out ++ (List.replicate (l / d) (out.drop (out.length - d))).flatten)
        ((out.length : Int) - (d : Int))
        (((out.length : Int) - (d : Int)) + ((l % d : Nat) : Int))
      = incCopy d out l := by
    rw [hrem, List.append_assoc, flatten_replicate_take (out.drop (out.length - d)) (l / d)
      (show l % d ≤ (out.drop (out.length - d)).length from by omega), hcl]
    rw [show d * (l / d) + l % d = l from Nat.div_add_mod l d]
    exact (incCopy_eq_tile d out h1 h2 l).symm
  unfold copy_match
  rw [if_neg (show ¬ ((expected : Int) - (out.length : Int) < (l : Int)) from by omega)]
  rw [if_neg (show ¬ (d = 0) from by omega)]
  show Except.ok (out ++ (List.replicate (l / d)
      (pySlice out ((out.length : Int) - (d : Int)) ((out.length : Nat) : Int))).flatten
      ++ pySlice (out ++ (List.replicate (l / d)
        (pySlice out ((out.length : Int) - (d : Int)) ((out.length : Nat) : Int))).flatten)
        ((out.length : Int) - (d : Int))
        (((out.length : Int) - (d : Int)) + ((l % d : Nat) : Int)))
    = Except.ok (incCopy d out l)
  rw [hchunk, key]

/-! ## Consumption, bound and inversion lemmas for the LZO loop -/

theorem get_length_go_length : ∀ (inp : List Nat) (acc g : Nat) (rest : List Nat),
    get_length_go inp acc = some (g, rest) → rest.length < inp.length := by
  intro inp
  induction inp with
  | nil => intro acc g rest h; simp [get_length_go] at h
  | cons b t ih =>
    intro acc g rest h
    by_cases hb : b = 0
    · simp only [get_length_go, hb, if_pos rfl] at h
      have := ih _ _ _ h
      simp only [List.length_cons]
      omega
    · simp only [get_length_go, if_neg hb, Option.some.injEq, Prod.mk.injEq] at h
      rw [← h.2]
      simp only [List.length_cons]
      omega

theorem get_length_go_subset : ∀ (inp : List Nat) (acc g : Nat) (rest : List Nat),
    get_length_go inp acc = some (g, rest) → rest ⊆ inp := by
  intro inp
  induction inp with
  | nil => intro acc g rest h; simp [get_length_go] at h
  | cons b t ih =>
    intro acc g rest h
    by_cases hb : b = 0
    · simp only [get_length_go, hb, if_pos rfl] at h
      exact (ih _ _ _ h).trans (List.subset_cons_self b t)
    · simp only [get_length_go, if_neg hb, Option.some.injEq, Prod.mk.injEq] at h
      rw [← h.2]
      exact List.subset_cons_self b t

theorem get_length_length {x m : Nat} {inp : List Nat} {g : Nat} {rest : List Nat}
    (h : get_length x m inp = some (g, rest)) : rest.length ≤ inp.length := by
  unfold get_length at h
  split at h
  · cases hgo : get_length_go inp 0 with
    | none => rw [hgo] at h; simp at h
    | some p =>
      rw [hgo] at h
      obtain ⟨acc, r2⟩ := p
      simp only [Option.some.injEq, Prod.mk.injEq] at h
      rw [← h.2]
      exact le_of_lt (get_length_go_length inp 0 acc r2 hgo)
  · simp only [Option.some.injEq, Prod.mk.injEq] at h
    rw [← h.2]

theorem get_length_subset {x m : Nat} {inp : List Nat} {g : Nat} {rest : List Nat}
    (h : get_length x m inp = some (g, rest)) : rest ⊆ inp := by
  unfold get_length at h
  split at h
  · cases hgo : get_length_go inp 0 with
    | none => rw [hgo] at h; simp at h
    | some p =>
      rw [hgo] at h
      obtain ⟨acc, r2⟩ := p
      simp only [Option.some.injEq, Prod.mk.injEq] at h
      rw [← h.2]
      exact get_length_go_subset inp 0 acc r2 hgo
  · simp only [Option.some.injEq, Prod.mk.injEq] at h
    rw [← h.2]
    exact List.Subset.refl inp

theorem read_le16_inv {inp : List Nat} {e : Nat} {rest : List Nat}
    (h : read_le16 inp = some (e, rest)) :
    rest.length + 2 = inp.length ∧ rest ⊆ inp
      ∧ ((∀ b ∈ inp, b < 256) → e < 65536) := by
  match inp with
  | [] => simp [read_le16] at h
  | [_] => simp [read_le16] at h
  | a :: b :: t =>
    simp only [read_le16, Option.some.injEq, Prod.mk.injEq] at h
    obtain ⟨he, ht⟩ := h
    subst ht
    refine ⟨by simp, fun y hy => by simp [hy], fun hb => ?_⟩
    have ha2 : a < 256 := hb a (by simp)
    have hb2 : b < 256 := hb b (by simp)
    rw [← he, Nat.shiftLeft_eq]
    omega

theorem copy_match_ok_le {expected : Nat} {out : List Nat} {d l : Nat} {out1 : List Nat}
    (h : copy_match expected out d l = .ok out1) :
    out1.length ≤ expected ∧ out.length ≤ out1.length := by
  unfold copy_match at h
  split at h
  · simp at h
  · split at h
    · simp at h
    · rename_i hov hd0
      simp only [Except.ok.injEq] at h
      have hchunk := pySlice_length_le out ((out.length : Int) - (d : Int))
        ((out.length : Nat) : Int) (by omega)
      have hrem := pySlice_length_le
        (out ++ (List.replicate (l / d)
          (pySlice out ((out.length : Int) - (d : Int)) ((out.length : Nat) : Int))).flatten)
        ((out.length : Int) - (d : Int))
        (((out.length : Int) - (d : Int)) + ((l % d : Nat) : Int)) (by omega)
      have hflat : ((List.replicate (l / d)
          (pySlice out ((out.length : Int) - (d : Int)) ((out.length : Nat) : Int))).flatten).length
          = l / d * (pySlice out ((out.length : Int) - (d : Int)) ((out.length : Nat) : Int)).length := by
        simp [List.length_flatten, List.map_replicate, List.sum_replicate, smul_eq_mul]
      have hchunk2 : ((out.length : Int) - ((out.length : Int) - (d : Int))).toNat = d := by
        omega
      have hrem2 : ((((out.length : Int) - (d : Int)) + ((l % d : Nat) : Int))
          - ((out.length : Int) - (d : Int))).toNat = l % d := by omega
      rw [hchunk2] at hchunk
      rw [hrem2] at hrem
      have hmul : l / d * (pySlice out ((out.length : Int) - (d : Int))
          ((out.length : Nat) : Int)).length ≤ l / d * d :=
        Nat.mul_le_mul_left _ hchunk
      have hdm : d * (l / d) + l % d = l := Nat.div_add_mod l d
      have hcomm : l / d * d = d * (l / d) := Nat.mul_comm _ _
      rw [← h]
      simp only [List.length_append, hflat]
      constructor
      · omega
      · omega

theorem matchTail_cont {e : Nat} {o : List Nat} {D L S : Nat} {inp : List Nat}
    {st1 : Nat} {out1 inp1 : List Nat}
    (h : matchTail e o D L S inp = .cont st1 out1 inp1) :
    inp1.length ≤ inp.length ∧ out1.length ≤ e := by
  unfold matchTail at h
  cases hcm : copy_match e o D L with
  | error m => rw [hcm] at h; exact StepRes.noConfusion h
  | ok o1 =>
    simp only [hcm] at h
    split at h
    · exact StepRes.noConfusion h
    · rename_i hfree
      cases h
      refine ⟨by simp [List.length_drop], ?_⟩
      simp only [List.length_append, List.length_take]
      omega

theorem matchTail_ne_done (e : Nat) (o : List Nat) (D L S : Nat) (inp : List Nat)
    (o2 r2 : List Nat) : matchTail e o D L S inp ≠ .done o2 r2 := by
  intro h
  unfold matchTail at h
  cases hcm : copy_match e o D L with
  | error m => rw [hcm] at h; exact StepRes.noConfusion h
  | ok o1 =>
    simp only [hcm] at h
    split at h
    · exact StepRes.noConfusion h
    · exact StepRes.noConfusion h

theorem lzoStep_cont {expected x st : Nat} {out inp : List Nat}
    {st1 : Nat} {out1 inp1 : List Nat}
    (h : lzoStep expected x st out inp = .cont st1 out1 inp1) :
    inp1.length ≤ inp.length ∧ (out.length ≤ expected → out1.length ≤ expected) := by
  unfold lzoStep at h
  by_cases hx15 : x ≤ 15
  · rw [if_pos hx15] at h
    by_cases hst0 : st = 0
    · rw [if_pos hst0] at h
      cases hgl : get_length x 15 inp with
      | none => rw [hgl] at h; exact StepRes.noConfusion h
      | some p =>
        obtain ⟨gl, inpA⟩ := p
        simp only [hgl] at h
        split at h
        · exact StepRes.noConfusion h
        · rename_i hfree
          cases h
          have hlen := get_length_length hgl
          refine ⟨by simp only [List.length_drop]; omega, fun _ => ?_⟩
          simp only [List.length_append, List.length_take]
          omega
    · rw [if_neg hst0] at h
      by_cases hst4 : st < 4
      · rw [if_pos hst4] at h
        cases inp with
        | nil => exact StepRes.noConfusion h
        | cons d inpA =>
          have hmt := matchTail_cont h
          refine ⟨?_, fun _ => hmt.2⟩
          simp only [List.length_cons]
          omega
      · rw [if_neg hst4] at h
        by_cases hst42 : st = 4
        · rw [if_pos hst42] at h
          cases inp with
          | nil => exact StepRes.noConfusion h
          | cons d inpA =>
            have hmt := matchTail_cont h
            refine ⟨?_, fun _ => hmt.2⟩
            simp only [List.length_cons]
            omega
        · rw [if_neg hst42] at h
          cases h
          exact ⟨le_refl _, fun hh => hh⟩
  · rw [if_neg hx15] at h
    by_cases hx127 : 127 < x
    · rw [if_pos hx127] at h
      cases inp with
      | nil => exact StepRes.noConfusion h
      | cons d inpA =>
        have hmt := matchTail_cont h
        refine ⟨?_, fun _ => hmt.2⟩
        simp only [List.length_cons]
        omega
    · rw [if_neg hx127] at h
      by_cases hx63 : 63 < x
      · rw [if_pos hx63] at h
        cases inp with
        | nil => exact StepRes.noConfusion h
        | cons d inpA =>
          have hmt := matchTail_cont h
          refine ⟨?_, fun _ => hmt.2⟩
          simp only [List.length_cons]
          omega
      · rw [if_neg hx63] at h
        by_cases hx31 : 31 < x
        · rw [if_pos hx31] at h
          cases hgl : get_length x 31 inp with
          | none => rw [hgl] at h; exact StepRes.noConfusion h
          | some p =>
            obtain ⟨gl, inpA⟩ := p
            simp only [hgl] at h
            cases hle : read_le16 inpA with
            | none => rw [hle] at h; exact StepRes.noConfusion h
            | some q =>
              obtain ⟨extra, inpB⟩ := q
              simp only [hle] at h
              have hmt := matchTail_cont h
              have h1 := get_length_length hgl
              have h2 := (read_le16_inv hle).1
              exact ⟨by omega, fun _ => hmt.2⟩
        · rw [if_neg hx31] at h
          cases hgl : get_length x 7 inp with
          | none => rw [hgl] at h; exact StepRes.noConfusion h
          | some p =>
            obtain ⟨gl, inpA⟩ := p
            simp only [hgl] at h
            cases hle : read_le16 inpA with
            | none => rw [hle] at h; exact StepRes.noConfusion h
            | some q =>
              obtain ⟨extra, inpB⟩ := q
              simp only [hle] at h
              split at h
              · split at h
                · exact StepRes.noConfusion h
                · exact StepRes.noConfusion h
              · have hmt := matchTail_cont h
                have h1 := get_length_length hgl
                have h2 := (read_le16_inv hle).1
                exact ⟨by omega, fun _ => hmt.2⟩

theorem lzoStep_done {expected x st : Nat} {out inp : List Nat} {o r : List Nat}
    (h : lzoStep expected x st out inp = .done o r) :
    o = out ∧ 15 < x ∧ x ≤ 31
      ∧ ∃ gl inpA extra,
          get_length x 7 inp = some (gl, inpA)
          ∧ read_le16 inpA = some (extra, r)
          ∧ 16384 + ((x &&& 8) <<< 11) + (extra >>> 2) = 16384
          ∧ 2 + gl = 3 := by
  unfold lzoStep at h
  by_cases hx15 : x ≤ 15
  · rw [if_pos hx15] at h
    by_cases hst0 : st = 0
    · rw [if_pos hst0] at h
      cases hgl : get_length x 15 inp with
      | none => rw [hgl] at h; exact StepRes.noConfusion h
      | some p =>
        obtain ⟨gl, inpA⟩ := p
        simp only [hgl] at h
        split at h
        · exact StepRes.noConfusion h
        · exact StepRes.noConfusion h
    · rw [if_neg hst0] at h
      by_cases hst4 : st < 4
      · rw [if_pos hst4] at h
        cases inp with
        | nil => exact StepRes.noConfusion h
        | cons d inpA => exact absurd h (matchTail_ne_done _ _ _ _ _ _ _ _)
      · rw [if_neg hst4] at h
        by_cases hst42 : st = 4
        · rw [if_pos hst42] at h
          cases inp with
          | nil => exact StepRes.noConfusion h
          | cons d inpA => exact absurd h (matchTail_ne_done _ _ _ _ _ _ _ _)
        · rw [if_neg hst42] at h
          exact StepRes.noConfusion h
  · rw [if_neg hx15] at h
    by_cases hx127 : 127 < x
    · rw [if_pos hx127] at h
      cases inp with
      | nil => exact StepRes.noConfusion h
      | cons d inpA => exact absurd h (matchTail_ne_done _ _ _ _ _ _ _ _)
    · rw [if_neg hx127] at h
      by_cases hx63 : 63 < x
      · rw [if_pos hx63] at h
        cases inp with
        | nil => exact StepRes.noConfusion h
        | cons d inpA => exact absurd h (matchTail_ne_done _ _ _ _ _ _ _ _)
      · rw [if_neg hx63] at h
        by_cases hx31 : 31 < x
        · rw [if_pos hx31] at h
          cases hgl : get_length x 31 inp with
          | none => rw [hgl] at h; exact StepRes.noConfusion h
          | some p =>
            obtain ⟨gl, inpA⟩ := p
            simp only [hgl] at h
            cases hle : read_le16 inpA with
            | none => rw [hle] at h; exact StepRes.noConfusion h
            | some q =>
              obtain ⟨extra, inpB⟩ := q
              simp only [hle] at h
              exact absurd h (matchTail_ne_done _ _ _ _ _ _ _ _)
        · rw [if_neg hx31] at h
          cases hgl : get_length x 7 inp with
          | none => rw [hgl] at h; exact StepRes.noConfusion h
          | some p =>
            obtain ⟨gl, inpA⟩ := p
            simp only [hgl] at h
            cases hle : read_le16 inpA with
            | none => rw [hle] at h; exact StepRes.noConfusion h
            | some q =>
              obtain ⟨extra, inpB⟩ := q
              simp only [hle] at h
              split at h
              · rename_i hdist
                split at h
                · exact StepRes.noConfusion h
                · rename_i hgl3
                  cases h
                  exact ⟨rfl, by omega, by omega, gl, inpA, extra, rfl, hle, hdist,
                    by omega⟩
              · exact absurd h (matchTail_ne_done _ _ _ _ _ _ _ _)

theorem lzoLoop_ok_src {expected : Nat} :
    ∀ (fuel x st : Nat) (out inp o r : List Nat),
      lzoLoop expected fuel x st out inp = .ok o r →
      ∃ x2 st2 out2 inp2, lzoStep expected x2 st2 out2 inp2 = .done o r := by
  intro fuel
  induction fuel with
  | zero =>
    intro x st out inp o r h
    exact LzoOut.noConfusion h
  | succ n ih =>
    intro x st out inp o r h
    rw [lzoLoop] at h
    cases hstep : lzoStep expected x st out inp with
    | err m => rw [hstep] at h; exact LzoOut.noConfusion h
    | done o2 r2 =>
      rw [hstep] at h
      have h2 : LzoOut.ok o2 r2 = LzoOut.ok o r := h
      cases h2
      exact ⟨x, st, out, inp, hstep⟩
    | cont st1 out1 inp1 =>
      rw [hstep] at h
      cases inp1 with
      | nil => exact LzoOut.noConfusion h
      | cons x1 rest => exact ih x1 st1 out1 rest o r h

theorem lzoLoop_no_diverge {expected : Nat} :
    ∀ (fuel x st : Nat) (out inp : List Nat),
      inp.length + 1 ≤ fuel → lzoLoop expected fuel x st out inp ≠ .diverge := by
  intro fuel
  induction fuel with
  | zero => intro x st out inp hf; omega
  | succ n ih =>
    intro x st out inp hf h
    rw [lzoLoop] at h
    cases hstep : lzoStep expected x st out inp with
    | err m => rw [hstep] at h; exact LzoOut.noConfusion h
    | done o2 r2 => rw [hstep] at h; exact LzoOut.noConfusion h
    | cont st1 out1 inp1 =>
      rw [hstep] at h
      cases hinp : inp1 with
      | nil => rw [hinp] at h; exact LzoOut.noConfusion h
      | cons x1 rest =>
        rw [hinp] at h
        have hcons := lzoStep_cont hstep
        have hrest : rest.length + 1 ≤ n := by
          have : inp1.length = rest.length + 1 := by rw [hinp]; simp
          omega
        exact ih x1 st1 out1 rest hrest h

theorem lzoLoop_fuel_irrel {expected : Nat} :
    ∀ (f g x st : Nat) (out inp : List Nat),
      inp.length + 1 ≤ f → inp.length + 1 ≤ g →
      lzoLoop expected f x st out inp = lzoLoop expected g x st out inp := by
  intro f
  induction f with
  | zero => intro g x st out inp hf hg; omega
  | succ n ih =>
    intro g x st out inp hf hg
    cases g with
    | zero => omega
    | succ m =>
      rw [lzoLoop, lzoLoop]
      cases hstep : lzoStep expected x st out inp with
      | err m2 => rfl
      | done o2 r2 => rfl
      | cont st1 out1 inp1 =>
        cases hinp : inp1 with
        | nil => rfl
        | cons x1 rest =>
          have hcons := lzoStep_cont hstep
          have hlen : inp1.length = rest.length + 1 := by rw [hinp]; simp
          exact ih m x1 st1 out1 rest (by omega) (by omega)

theorem lzoLoop_ok_le {expected : Nat} :
    ∀ (fuel x st : Nat) (out inp o r : List Nat),
      out.length ≤ expected →
      lzoLoop expected fuel x st out inp = .ok o r → o.length ≤ expected := by
  intro fuel
  induction fuel with
  | zero => intro x st out inp o r hle h; exact absurd h (by exact LzoOut.noConfusion)
  | succ n ih =>
    intro x st out inp o r hle h
    rw [lzoLoop] at h
    cases hstep : lzoStep expected x st out inp with
    | err m => rw [hstep] at h; exact LzoOut.noConfusion h
    | done o2 r2 =>
      rw [hstep] at h
      have h2 : LzoOut.ok o2 r2 = LzoOut.ok o r := h
      cases h2
      have := (lzoStep_done hstep).1
      rw [this]
      exact hle
    | cont st1 out1 inp1 =>
      rw [hstep] at h
      cases inp1 with
      | nil => exact LzoOut.noConfusion h
      | cons x1 rest =>
        exact ih x1 st1 out1 rest o r ((lzoStep_cont hstep).2 hle) h

/-! ## Claim theorems for the LZO1X decompressor -/

/-- C1.  For every input byte stream and every declared expected length,
`lzo1x_decompress` either fails or returns an output whose length is
exactly the expected length; no successful call returns a buffer of any
other length. -/
theorem lzo1x_decompress_exact_length (input : List Nat) (expected consumed : Nat)
    (out : List Nat) (h : lzo1x_decompress input expected = .ok (consumed, out)) :
    out.length = expected := by
  unfold lzo1x_decompress at h
  cases hrun : lzo1x_run (input.length + 1) input expected with
  | ok o r =>
    simp only [hrun] at h
    split at h
    · exact Except.noConfusion h
    · rename_i hlen
      simp only [Except.ok.injEq, Prod.mk.injEq] at h
      rw [← h.2]
      omega
  | err m => rw [hrun] at h; exact Except.noConfusion h
  | diverge => rw [hrun] at h; exact Except.noConfusion h

/-- C1 witness: a concrete stream (bare end marker) decompressing to the
empty output of the declared length 0. -/
theorem lzo1x_decompress_exact_length_witness : ([] : List Nat).length = 0 :=
  lzo1x_decompress_exact_length [17, 0, 0] 0 3 [] rfl

/-- C2.  For a match with `1 ≤ distance ≤ len(output)` that passes the
free-space check, the chunked copy of `copy_match` (whole `distance`-sized
chunks, then the remainder slice) produces exactly the same buffer as the
incremental byte-by-byte reference copy `output[i] := output[i - distance]`,
appending exactly `length` bytes; overlapping copies tile the last
`distance` bytes as a repeating pattern. -/
theorem lzo_overlap_copy_incremental (expected : Nat) (out : List Nat) (d l : Nat)
    (h1 : 1 ≤ d) (h2 : d ≤ out.length) (h3 : out.length + l ≤ expected) :
    copy_match expected out d l = .ok (incCopy d out l)
      ∧ (incCopy d out l).length = out.length + l := by
  refine ⟨copy_match_spec expected out d l h1 h2 h3, ?_⟩
  rw [incCopy_eq_tile d out h1 h2 l, List.length_append, tile_length]

/-- C2 witness: the overlapped copy `distance 2, length 5` on buffer
`[1, 2]`. -/
theorem lzo_overlap_copy_incremental_witness :
    copy_match 10 [1, 2] 2 5 = .ok (incCopy 2 [1, 2] 5)
      ∧ (incCopy 2 [1, 2] 5).length = [1, 2].length + 5 :=
  lzo_overlap_copy_incremental 10 [1, 2] 2 5 (by decide) (by decide) (by decide)

/-- C3.  The loop of `lzo1x_decompress` terminates normally only at the end
marker: (i) a command in the 16–31 class whose decoded distance is exactly
16384 breaks out of the loop with the output unchanged when the decoded
length is exactly 3, and raises an error (copying nothing) for any other
length; (ii) conversely, every `done` step is such an end marker; (iii)
every normal loop exit arises from a `done` step. -/
theorem lzo_end_marker :
    (∀ (expected x st : Nat) (out inp : List Nat) (gl : Nat) (inpA : List Nat)
        (extra : Nat) (inpB : List Nat),
        15 < x → x ≤ 31 →
        get_length x 7 inp = some (gl, inpA) →
        read_le16 inpA = some (extra, inpB) →
        16384 + ((x &&& 8) <<< 11) + (extra >>> 2) = 16384 →
        (2 + gl = 3 → lzoStep expected x st out inp = .done out inpB)
          ∧ (2 + gl ≠ 3 →
              lzoStep expected x st out inp = .err "LZO - Invalid End Of Stream"))
    ∧ (∀ (expected x st : Nat) (out inp o r : List Nat),
        lzoStep expected x st out inp = .done o r →
        o = out ∧ 15 < x ∧ x ≤ 31
          ∧ ∃ gl inpA extra,
              get_length x 7 inp = some (gl, inpA)
              ∧ read_le16 inpA = some (extra, r)
              ∧ 16384 + ((x &&& 8) <<< 11) + (extra >>> 2) = 16384
              ∧ 2 + gl = 3)
    ∧ (∀ (expected fuel x st : Nat) (out inp o r : List Nat),
        lzoLoop expected fuel x st out inp = .ok o r →
        ∃ x2 st2 out2 inp2, lzoStep expected x2 st2 out2 inp2 = .done o r) := by
  refine ⟨?_, ?_, ?_⟩
  · intro expected x st out inp gl inpA extra inpB hx1 hx2 hgl hle hdist
    unfold lzoStep
    rw [if_neg (show ¬ (x ≤ 15) from by omega),
      if_neg (show ¬ (127 < x) from by omega),
      if_neg (show ¬ (63 < x) from by omega),
      if_neg (show ¬ (31 < x) from by omega)]
    simp only [hgl, hle]
    rw [if_pos hdist]
    constructor
    · intro h3
      rw [if_neg (show ¬ (2 + gl ≠ 3) from fun hh => hh h3)]
    · intro hne
      rw [if_pos hne]
  · intro expected x st out inp o r h
    exact lzoStep_done h
  · intro expected fuel x st out inp o r h
    exact lzoLoop_ok_src fuel x st out inp o r h

/-- C3 witness: the concrete end marker `x = 17`, `extra = 0` breaks the
loop with an empty output. -/
theorem lzo_end_marker_witness :
    lzoStep 0 17 0 [] [0, 0] = .done [] [] :=
  (lzo_end_marker.1 0 17 0 [] [0, 0] 1 [0, 0] 0 [] (by decide) (by decide)
    (by decide) (by decide) (by decide)).1 (by decide)

theorem lzo1x_run_no_diverge (input : List Nat) (expected fuel : Nat)
    (hf : input.length + 1 ≤ fuel) : lzo1x_run fuel input expected ≠ .diverge := by
  cases input with
  | nil => simp [lzo1x_run]
  | cons x rest =>
    simp only [lzo1x_run]
    simp only [List.length_cons] at hf
    by_cases h17 : 17 < x
    · rw [if_pos h17]
      by_cases hov : (expected : Int) < ((x - 17 : Nat) : Int)
      · rw [if_pos hov]; exact LzoOut.noConfusion
      · rw [if_neg hov]
        cases hdrop : rest.drop (x - 17) with
        | nil => simp only [hdrop]; exact LzoOut.noConfusion
        | cons x1 rest1 =>
          simp only [hdrop]
          have hlen1 : rest1.length + 1 ≤ rest.length := by
            have := congrArg List.length hdrop
            simp only [List.length_drop, List.length_cons] at this
            omega
          exact lzoLoop_no_diverge fuel x1 (min 4 (x - 17)) (rest.take (x - 17))
            rest1 (by omega)
    · rw [if_neg h17]
      exact lzoLoop_no_diverge fuel x 0 [] rest (by omega)

theorem lzo1x_run_fuel_irrel (input : List Nat) (expected f g : Nat)
    (hfr : input.length + 1 ≤ f) (hg : input.length + 1 ≤ g) :
    lzo1x_run f input expected = lzo1x_run g input expected := by
  cases input with
  | nil => rfl
  | cons x rest =>
    simp only [lzo1x_run]
    simp only [List.length_cons] at hfr hg
    by_cases h17 : 17 < x
    · rw [if_pos h17, if_pos h17]
      by_cases hov : (expected : Int) < ((x - 17 : Nat) : Int)
      · rw [if_pos hov, if_pos hov]
      · rw [if_neg hov, if_neg hov]
        cases hdrop : rest.drop (x - 17) with
        | nil => simp only [hdrop]
        | cons x1 rest1 =>
          simp only [hdrop]
          have hlen1 : rest1.length + 1 ≤ rest.length := by
            have := congrArg List.length hdrop
            simp only [List.length_drop, List.length_cons] at this
            omega
          exact lzoLoop_fuel_irrel f g x1 (min 4 (x - 17)) (rest.take (x - 17))
            rest1 (by omega) (by omega)
    · rw [if_neg h17, if_neg h17]
      exact lzoLoop_fuel_irrel f g x 0 [] rest (by omega) (by omega)

theorem lzo1x_run_ok_le (input : List Nat) (expected fuel : Nat) (o r : List Nat)
    (h : lzo1x_run fuel input expected = .ok o r) : o.length ≤ expected := by
  cases input with
  | nil => exact LzoOut.noConfusion h
  | cons x rest =>
    simp only [lzo1x_run] at h
    by_cases h17 : 17 < x
    · rw [if_pos h17] at h
      by_cases hov : (expected : Int) < ((x - 17 : Nat) : Int)
      · rw [if_pos hov] at h; exact LzoOut.noConfusion h
      · rw [if_neg hov] at h
        cases hdrop : rest.drop (x - 17) with
        | nil => rw [hdrop] at h; exact LzoOut.noConfusion h
        | cons x1 rest1 =>
          simp only [hdrop] at h
          have htk : (rest.take (x - 17)).length ≤ expected := by
            simp only [List.length_take]
            omega
          exact lzoLoop_ok_le fuel x1 (min 4 (x - 17)) (rest.take (x - 17))
            rest1 o r htk h
    · rw [if_neg h17] at h
      exact lzoLoop_ok_le fuel x 0 [] rest o r (by simp) h

/-- C9.  `lzo1x_decompress` terminates on every finite input: with fuel at
least `input.length + 1` the fueled run never exhausts its fuel (every loop
iteration consumes at least one input byte), the result is independent of
the fuel, and a normal exit never carries an output longer than the
declared expected length (every write is bounds-checked). -/
theorem lzo1x_termination (input : List Nat) (expected fuel : Nat)
    (hf : input.length + 1 ≤ fuel) :
    lzo1x_run fuel input expected ≠ .diverge
      ∧ lzo1x_run fuel input expected = lzo1x_run (input.length + 1) input expected
      ∧ ∀ o r, lzo1x_run fuel input expected = .ok o r → o.length ≤ expected :=
  ⟨lzo1x_run_no_diverge input expected fuel hf,
    lzo1x_run_fuel_irrel input expected fuel (input.length + 1) hf (by omega),
    fun o r h => lzo1x_run_ok_le input expected fuel o r h⟩

/-- C9 witness: the bare end-marker stream at fuel 4. -/
theorem lzo1x_termination_witness :
    lzo1x_run 4 [17, 0, 0] 0 ≠ .diverge
      ∧ lzo1x_run 4 [17, 0, 0] 0 = lzo1x_run ([17, 0, 0].length + 1) [17, 0, 0] 0
      ∧ ∀ o r, lzo1x_run 4 [17, 0, 0] 0 = .ok o r → o.length ≤ 0 :=
  lzo1x_termination [17, 0, 0] 0 4 (by decide)

/-- C7 counterexample: the claimed distance bound [1, 16383] is violated.
The command byte 33 with distance word `0xFFFF` (class 32–63) decodes
distance 16384, and the command byte 17 with distance word `0x0004`
(class 16–31, not the sentinel) decodes distance 16385; the latter step
really executes as a match copy (a `cont` step, not an error and not the
end marker). -/
theorem lzo_match_distance_cex :
    lzoStepMatch 17 0 [4, 0] = some 16385
      ∧ lzoStep 100 17 0 [9, 9, 9] [4, 0] = .cont 0 [9, 9, 9] []
      ∧ ¬ (∀ (x st : Nat) (inp : List Nat) (dist : Nat),
          (∀ b ∈ inp, b < 256) → lzoStepMatch x st inp = some dist →
          1 ≤ dist ∧ dist ≤ 16383) := by
  refine ⟨by decide, by decide, ?_⟩
  intro hclaim
  have h := hclaim 17 0 [4, 0] 16385 (by decide) (by decide)
  omega

/-- C7 (amended).  Every distance decoded for an executed (non-sentinel)
match command lies in [1, 49151]: the short classes stay below 3073, the
32–63 class reaches up to 16384, and the non-sentinel 16–31 class covers
[16385, 49151]; the bound 16383 claimed by the data model does not hold. -/
theorem lzo_match_distance_range (x st : Nat) (inp : List Nat) (dist : Nat)
    (hb : ∀ b ∈ inp, b < 256) (h : lzoStepMatch x st inp = some dist) :
    1 ≤ dist ∧ dist ≤ 49151 := by
  unfold lzoStepMatch at h
  by_cases hx15 : x ≤ 15
  · rw [if_pos hx15] at h
    by_cases hst0 : st = 0
    · rw [if_pos hst0] at h; exact Option.noConfusion h
    · rw [if_neg hst0] at h
      by_cases hst4 : st < 4
      · rw [if_pos hst4] at h
        cases inp with
        | nil => exact Option.noConfusion h
        | cons d t =>
          simp only [Option.some.injEq] at h
          have hd : d < 256 := hb d (by simp)
          omega
      · rw [if_neg hst4] at h
        by_cases hst42 : st = 4
        · rw [if_pos hst42] at h
          cases inp with
          | nil => exact Option.noConfusion h
          | cons d t =>
            simp only [Option.some.injEq] at h
            have hd : d < 256 := hb d (by simp)
            omega
        · rw [if_neg hst42] at h; exact Option.noConfusion h
  · rw [if_neg hx15] at h
    by_cases hx127 : 127 < x
    · rw [if_pos hx127] at h
      cases inp with
      | nil => exact Option.noConfusion h
      | cons d t =>
        simp only [Option.some.injEq] at h
        have hd : d < 256 := hb d (by simp)
        have h7 : (x >>> 2) &&& 7 ≤ 7 := Nat.and_le_right
        omega
    · rw [if_neg hx127] at h
      by_cases hx63 : 63 < x
      · rw [if_pos hx63] at h
        cases inp with
        | nil => exact Option.noConfusion h
        | cons d t =>
          simp only [Option.some.injEq] at h
          have hd : d < 256 := hb d (by simp)
          have h7 : (x >>> 2) &&& 7 ≤ 7 := Nat.and_le_right
          omega
      · rw [if_neg hx63] at h
        by_cases hx31 : 31 < x
        · rw [if_pos hx31] at h
          cases hgl : get_length x 31 inp with
          | none => rw [hgl] at h; exact Option.noConfusion h
          | some p =>
            obtain ⟨gl, inpA⟩ := p
            simp only [hgl] at h
            cases hle : read_le16 inpA with
            | none => rw [hle] at h; exact Option.noConfusion h
            | some q =>
              obtain ⟨extra, inpB⟩ := q
              simp only [hle, Option.some.injEq] at h
              have hbA : ∀ b ∈ inpA, b < 256 :=
                fun b hbm => hb b (get_length_subset hgl hbm)
              have hex : extra < 65536 := (read_le16_inv hle).2.2 hbA
              omega
        · rw [if_neg hx31] at h
          cases hgl : get_length x 7 inp with
          | none => rw [hgl] at h; exact Option.noConfusion h
          | some p =>
            obtain ⟨gl, inpA⟩ := p
            simp only [hgl] at h
            cases hle : read_le16 inpA with
            | none => rw [hle] at h; exact Option.noConfusion h
            | some q =>
              obtain ⟨extra, inpB⟩ := q
              simp only [hle] at h
              split at h
              · exact Option.noConfusion h
              · rename_i hne
                simp only [Option.some.injEq] at h
                have hbA : ∀ b ∈ inpA, b < 256 :=
                  fun b hbm => hb b (get_length_subset hgl hbm)
                have hex : extra < 65536 := (read_le16_inv hle).2.2 hbA
                have hand : x &&& 8 ≤ 8 := Nat.and_le_right
                omega

/-- C7 (amended) witness: distance 16385 decoded by the 16–31 command
class at a concrete input. -/
theorem lzo_match_distance_range_witness :
    1 ≤ 16385 ∧ 16385 ≤ 49151 :=
  lzo_match_distance_range 17 0 [4, 0] 16385 (by decide) (by decide)

/-! ## DXT1 / DXT5 texture decoders

The four Python decoders (`decode_dxt1`/`decode_dxt5` in
`paa/_encoding.py`, `dxt1_decompress`/`dxt5_decompress` in
`compression.py`) share the same per-block arithmetic but differ in the
row order of their writes (top-down vs bottom-up OpenGL order) and in the
output layout (one interleaved RGBA array vs four parallel channel
arrays).  The embedding models a pixel as one `ℚ`-quadruple (the four
float stores at a common pixel index become one tuple store), models the
nested block/row/column write loops as an explicit write list applied by
`List.set`, and stops before the final `uint8` quantisation of
`_encoding.py` (the claims only concern the float stage). -/

/-- An RGBA sample; Python floats are modelled over `ℚ`. -/
abbrev Pixel := ℚ × ℚ × ℚ × ℚ

instance {ε α : Type} [DecidableEq ε] [DecidableEq α] : DecidableEq (Except ε α) :=
  fun a b =>
    match a, b with
    | .ok x, .ok y =>
      if h : x = y then .isTrue (by rw [h])
      else .isFalse (by intro hc; cases hc; exact h rfl)
    | .error x, .error y =>
      if h : x = y then .isTrue (by rw [h])
      else .isFalse (by intro hc; cases hc; exact h rfl)
    | .ok _, .error _ => .isFalse (fun hc => Except.noConfusion hc)
    | .error _, .ok _ => .isFalse (fun hc => Except.noConfusion hc)

/-- Byte access into the block data (all accesses are guarded by an input
length check, so the default is never exercised on the `ok` path). -/
def byteAt (data : List Nat) (i : Nat) : Nat := data.getD i 0

/-- Red channel of a packed RGB565 value: `(v >> 11) / 31`. -/
def rgb565_r (v : Nat) : ℚ := ((v >>> 11 : Nat) : ℚ) / 31

/-- Green channel of a packed RGB565 value: `((v >> 5) & 0x3f) / 63`. -/
def rgb565_g (v : Nat) : ℚ := ((((v >>> 5) &&& 0x3f : Nat)) : ℚ) / 63

/-- Blue channel of a packed RGB565 value: `(v & 0x1f) / 31`. -/
def rgb565_b (v : Nat) : ℚ := ((v &&& 0x1f : Nat) : ℚ) / 31

/-- Per-texel colour of a DXT1 block as computed by `decode_dxt1` in
`paa/_encoding.py`: endpoint expansion, the `v0 > v1` two-thirds/one-third
ramp versus the midpoint ramp with transparent black, and the 2-bit code
lookup (code `pix` is bits `2*pix .. 2*pix+1` of the little-endian code
table). -/
def dxt1_blockPixel (v0 v1 table pix : Nat) : Pixel :=
  let code := (table >>> (2 * pix)) &&& 3
  if v1 < v0 then
    match code with
    | 0 => (rgb565_r v0, rgb565_g v0, rgb565_b v0, 1)
    | 1 => (rgb565_r v1, rgb565_g v1, rgb565_b v1, 1)
    | 2 => ((2/3 : ℚ) * rgb565_r v0 + (1/3 : ℚ) * rgb565_r v1,
            (2/3 : ℚ) * rgb565_g v0 + (1/3 : ℚ) * rgb565_g v1,
            (2/3 : ℚ) * rgb565_b v0 + (1/3 : ℚ) * rgb565_b v1, 1)
    | _ => ((1/3 : ℚ) * rgb565_r v0 + (2/3 : ℚ) * rgb565_r v1,
            (1/3 : ℚ) * rgb565_g v0 + (2/3 : ℚ) * rgb565_g v1,
            (1/3 : ℚ) * rgb565_b v0 + (2/3 : ℚ) * rgb565_b v1, 1)
  else
    match code with
    | 0 => (rgb565_r v0, rgb565_g v0, rgb565_b v0, 1)
    | 1 => (rgb565_r v1, rgb565_g v1, rgb565_b v1, 1)
    | 2 => ((1/2 : ℚ) * (rgb565_r v0 + rgb565_r v1),
            (1/2 : ℚ) * (rgb565_g v0 + rgb565_g v1),
            (1/2 : ℚ) * (rgb565_b v0 + rgb565_b v1), 1)
    | _ => (0, 0, 0, 0)

/-- Per-texel colour of a DXT1 block as computed by `dxt1_decompress` in
`compression.py` (same endpoint expansion, ramp branch and code lookup;
the channels live in four parallel arrays in the source). -/
def dxt1_blockPixel_c (v0 v1 table pix : Nat) : Pixel :=
  let code := (table >>> (2 * pix)) &&& 3
  if v1 < v0 then
    match code with
    | 0 => (rgb565_r v0, rgb565_g v0, rgb565_b v0, 1)
    | 1 => (rgb565_r v1, rgb565_g v1, rgb565_b v1, 1)
    | 2 => ((2/3 : ℚ) * rgb565_r v0 + (1/3 : ℚ) * rgb565_r v1,
            (2/3 : ℚ) * rgb565_g v0 + (1/3 : ℚ) * rgb565_g v1,
            (2/3 : ℚ) * rgb565_b v0 + (1/3 : ℚ) * rgb565_b v1, 1)
    | _ => ((1/3 : ℚ) * rgb565_r v0 + (2/3 : ℚ) * rgb565_r v1,
            (1/3 : ℚ) * rgb565_g v0 + (2/3 : ℚ) * rgb565_g v1,
            (1/3 : ℚ) * rgb565_b v0 + (2/3 : ℚ) * rgb565_b v1, 1)
  else
    match code with
    | 0 => (rgb565_r v0, rgb565_g v0, rgb565_b v0, 1)
    | 1 => (rgb565_r v1, rgb565_g v1, rgb565_b v1, 1)
    | 2 => ((1/2 : ℚ) * (rgb565_r v0 + rgb565_r v1),
            (1/2 : ℚ) * (rgb565_g v0 + rgb565_g v1),
            (1/2 : ℚ) * (rgb565_b v0 + rgb565_b v1), 1)
    | _ => (0, 0, 0, 0)

/-- Per-texel alpha of a DXT5 block (`decode_dxt5` / `dxt5_decompress`,
identical in both sources): the 8-level ramp when `a0 > a1`, otherwise the
6-level ramp with hard 0 and 1 sentinels; the 3-bit code `pix` is bits
`3*pix .. 3*pix+2` of the 48-bit little-endian alpha table. -/
def dxt5_alpha (a0 a1 atable pix : Nat) : ℚ :=
  let acode := (atable >>> (3 * pix)) &&& 7
  let q0 : ℚ := (a0 : ℚ) / 255
  let q1 : ℚ := (a1 : ℚ) / 255
  if a1 < a0 then
    match acode with
    | 0 => q0
    | 1 => q1
    | 2 => (6/7 : ℚ) * q0 + (1/7 : ℚ) * q1
    | 3 => (5/7 : ℚ) * q0 + (2/7 : ℚ) * q1
    | 4 => (4/7 : ℚ) * q0 + (3/7 : ℚ) * q1
    | 5 => (3/7 : ℚ) * q0 + (4/7 : ℚ) * q1
    | 6 => (2/7 : ℚ) * q0 + (5/7 : ℚ) * q1
    | _ => (1/7 : ℚ) * q0 + (6/7 : ℚ) * q1
  else
    match acode with
    | 0 => q0
    | 1 => q1
    | 2 => (4/5 : ℚ) * q0 + (1/5 : ℚ) * q1
    | 3 => (3/5 : ℚ) * q0 + (2/5 : ℚ) * q1
    | 4 => (2/5 : ℚ) * q0 + (3/5 : ℚ) * q1
    | 5 => (1/5 : ℚ) * q0 + (4/5 : ℚ) * q1
    | 6 => 0
    | _ => 1

/-- Per-texel RGBA of a DXT5 block as computed by `decode_dxt5` in
`paa/_encoding.py`: the colour part keeps the same `v0 > v1` branch as
DXT1 (midpoint plus black colour 3 when `v0 ≤ v1`), and the alpha comes
exclusively from the alpha block. -/
def dxt5_blockPixel (a0 a1 atable v0 v1 table pix : Nat) : Pixel :=
  let code := (table >>> (2 * pix)) &&& 3
  let a := dxt5_alpha a0 a1 atable pix
  if v1 < v0 then
    match code with
    | 0 => (rgb565_r v0, rgb565_g v0, rgb565_b v0, a)
    | 1 => (rgb565_r v1, rgb565_g v1, rgb565_b v1, a)
    | 2 => ((2/3 : ℚ) * rgb565_r v0 + (1/3 : ℚ) * rgb565_r v1,
            (2/3 : ℚ) * rgb565_g v0 + (1/3 : ℚ) * rgb565_g v1,
            (2/3 : ℚ) * rgb565_b v0 + (1/3 : ℚ) * rgb565_b v1, a)
    | _ => ((1/3 : ℚ) * rgb565_r v0 + (2/3 : ℚ) * rgb565_r v1,
            (1/3 : ℚ) * rgb565_g v0 + (2/3 : ℚ) * rgb565_g v1,
            (1/3 : ℚ) * rgb565_b v0 + (2/3 : ℚ) * rgb565_b v1, a)
  else
    match code with
    | 0 => (rgb565_r v0, rgb565_g v0, rgb565_b v0, a)
    | 1 => (rgb565_r v1, rgb565_g v1, rgb565_b v1, a)
    | 2 => ((1/2 : ℚ) * (rgb565_r v0 + rgb565_r v1),
            (1/2 : ℚ) * (rgb565_g v0 + rgb565_g v1),
            (1/2 : ℚ) * (rgb565_b v0 + rgb565_b v1), a)
    | _ => (0, 0, 0, a)

/-- Per-texel RGBA of a DXT5 block as computed by `dxt5_decompress` in
`compression.py` (identical arithmetic; four parallel channel arrays in
the source). -/
def dxt5_blockPixel_c (a0 a1 atable v0 v1 table pix : Nat) : Pixel :=
  let code := (table >>> (2 * pix)) &&& 3
  let a := dxt5_alpha a0 a1 atable pix
  if v1 < v0 then
    match code with
    | 0 => (rgb565_r v0, rgb565_g v0, rgb565_b v0, a)
    | 1 => (rgb565_r v1, rgb565_g v1, rgb565_b v1, a)
    | 2 => ((2/3 : ℚ) * rgb565_r v0 + (1/3 : ℚ) * rgb565_r v1,
            (2/3 : ℚ) * rgb565_g v0 + (1/3 : ℚ) * rgb565_g v1,
            (2/3 : ℚ) * rgb565_b v0 + (1/3 : ℚ) * rgb565_b v1, a)
    | _ => ((1/3 : ℚ) * rgb565_r v0 + (2/3 : ℚ) * rgb565_r v1,
            (1/3 : ℚ) * rgb565_g v0 + (2/3 : ℚ) * rgb565_g v1,
            (1/3 : ℚ) * rgb565_b v0 + (2/3 : ℚ) * rgb565_b v1, a)
  else
    match code with
    | 0 => (rgb565_r v0, rgb565_g v0, rgb565_b v0, a)
    | 1 => (rgb565_r v1, rgb565_g v1, rgb565_b v1, a)
    | 2 => ((1/2 : ℚ) * (rgb565_r v0 + rgb565_r v1),
            (1/2 : ℚ) * (rgb565_g v0 + rgb565_g v1),
            (1/2 : ℚ) * (rgb565_b v0 + rgb565_b v1), a)
    | _ => (0, 0, 0, a)

/-- The nested `for brow / for bcol / for row / for col` write loops of the
block decoders, flattened in exactly the source iteration order into a list
of `(flat index, pixel)` stores. -/
def quadGen (A B : Nat) (idx : Nat → Nat → Nat → Nat → Nat)
    (val : Nat → Nat → Nat → Nat → Pixel) : List (Nat × Pixel) :=
  (List.range A).flatMap fun brow =>
    (List.range B).flatMap fun bcol =>
      (List.range 4).flatMap fun row =>
        (List.range 4).map fun col => (idx brow bcol row col, val brow bcol row col)

/-- Perform the indexed stores of the write list in order (Python indexed
assignment on the pre-sized zero buffer). -/
def applyWrites (ws : List (Nat × Pixel)) (buf : List Pixel) : List Pixel :=
  ws.foldl (fun b iv => b.set iv.1 iv.2) buf

/-- First 16-bit colour endpoint of DXT1 block `bi` (little endian). -/
def dxt1_block_v0 (data : List Nat) (bi : Nat) : Nat :=
  byteAt data (8 * bi) + (byteAt data (8 * bi + 1) <<< 8)

/-- Second 16-bit colour endpoint of DXT1 block `bi`. -/
def dxt1_block_v1 (data : List Nat) (bi : Nat) : Nat :=
  byteAt data (8 * bi + 2) + (byteAt data (8 * bi + 3) <<< 8)

/-- 32-bit code table of DXT1 block `bi` (little endian). -/
def dxt1_block_table (data : List Nat) (bi : Nat) : Nat :=
  byteAt data (8 * bi + 4) + (byteAt data (8 * bi + 5) <<< 8)
    + (byteAt data (8 * bi + 6) <<< 16) + (byteAt data (8 * bi + 7) <<< 24)

/-- `decode_dxt1(width, height, data)` from `paa/_encoding.py` up to the
float pixel buffer (top-down row order): resolution precondition, per-block
sequential reads (modelled by the total length check — the Python
`struct.error` on the first short block), then the block writes at flat
index `(brow*4+row)*width + bcol*4+col`. -/
def decode_dxt1 (w h : Nat) (data : List Nat) : Except String (List Pixel) :=
  if w % 4 ≠ 0 ∨ h % 4 ≠ 0 then
    .error "DXT - Unexpected resolution"
  else if data.length < 8 * ((h / 4) * (w / 4)) then
    .error "DXT - truncated block data"
  else
    .ok (applyWrites
      (quadGen (h / 4) (w / 4)
        (fun brow bcol row col => (brow * 4 + row) * w + (bcol * 4 + col))
        (fun brow bcol row col =>
          dxt1_blockPixel (dxt1_block_v0 data (brow * (w / 4) + bcol))
            (dxt1_block_v1 data (brow * (w / 4) + bcol))
            (dxt1_block_table data (brow * (w / 4) + bcol)) (row * 4 + col)))
      (List.replicate (w * h) (0, 0, 0, 0)))

/-- `dxt1_decompress(stream, width, height)` from `compression.py` (bottom-
to-top OpenGL row order): the same blocks written at flat index
`(height - brow*4 - row - 1)*width + bcol*4+col` into the four channel
arrays, modelled as one pixel buffer. -/
def dxt1_decompress (w h : Nat) (data : List Nat) : Except String (List Pixel) :=
  if w % 4 ≠ 0 ∨ h % 4 ≠ 0 then
    .error "DXT - Unexpected resolution"
  else if data.length < 8 * ((h / 4) * (w / 4)) then
    .error "DXT - truncated block data"
  else
    .ok (applyWrites
      (quadGen (h / 4) (w / 4)
        (fun brow bcol row col => (h - brow * 4 - row - 1) * w + (bcol * 4 + col))
        (fun brow bcol row col =>
          dxt1_blockPixel_c (dxt1_block_v0 data (brow * (w / 4) + bcol))
            (dxt1_block_v1 data (brow * (w / 4) + bcol))
            (dxt1_block_table data (brow * (w / 4) + bcol)) (row * 4 + col)))
      (List.replicate (w * h) (0, 0, 0, 0)))

/-- First alpha endpoint byte of DXT5 block `bi`. -/
def dxt5_block_a0 (data : List Nat) (bi : Nat) : Nat := byteAt data (16 * bi)

/-- Second alpha endpoint byte of DXT5 block `bi`. -/
def dxt5_block_a1 (data : List Nat) (bi : Nat) : Nat := byteAt data (16 * bi + 1)

/-- 48-bit alpha code table of DXT5 block `bi` (six little-endian bytes,
zero padded to 64 bits in the source). -/
def dxt5_block_atable (data : List Nat) (bi : Nat) : Nat :=
  byteAt data (16 * bi + 2) + (byteAt data (16 * bi + 3) <<< 8)
    + (byteAt data (16 * bi + 4) <<< 16) + (byteAt data (16 * bi + 5) <<< 24)
    + (byteAt data (16 * bi + 6) <<< 32) + (byteAt data (16 * bi + 7) <<< 40)

/-- First 16-bit colour endpoint of DXT5 block `bi`. -/
def dxt5_block_v0 (data : List Nat) (bi : Nat) : Nat :=
  byteAt data (16 * bi + 8) + (byteAt data (16 * bi + 9) <<< 8)

/-- Second 16-bit colour endpoint of DXT5 block `bi`. -/
def dxt5_block_v1 (data : List Nat) (bi : Nat) : Nat :=
  byteAt data (16 * bi + 10) + (byteAt data (16 * bi + 11) <<< 8)

/-- 32-bit colour code table of DXT5 block `bi`. -/
def dxt5_block_table (data : List Nat) (bi : Nat) : Nat :=
  byteAt data (16 * bi + 12) + (byteAt data (16 * bi + 13) <<< 8)
    + (byteAt data (16 * bi + 14) <<< 16) + (byteAt data (16 * bi + 15) <<< 24)

/-- `decode_dxt5(width, height, data)` from `paa/_encoding.py` up to the
float pixel buffer (top-down row order). -/
def decode_dxt5 (w h : Nat) (data : List Nat) : Except String (List Pixel) :=
  if w % 4 ≠ 0 ∨ h % 4 ≠ 0 then
    .error "DXT - Unexpected resolution"
  else if data.length < 16 * ((h / 4) * (w / 4)) then
    .error "DXT - truncated block data"
  else
    .ok (applyWrites
      (quadGen (h / 4) (w / 4)
        (fun brow bcol row col => (brow * 4 + row) * w + (bcol * 4 + col))
        (fun brow bcol row col =>
          dxt5_blockPixel (dxt5_block_a0 data (brow * (w / 4) + bcol))
            (dxt5_block_a1 data (brow * (w / 4) + bcol))
            (dxt5_block_atable data (brow * (w / 4) + bcol))
            (dxt5_block_v0 data (brow * (w / 4) + bcol))
            (dxt5_block_v1 data (brow * (w / 4) + bcol))
            (dxt5_block_table data (brow * (w / 4) + bcol)) (row * 4 + col)))
      (List.replicate (w * h) (0, 0, 0, 0)))

/-- `dxt5_decompress(stream, width, height)` from `compression.py`
(bottom-to-top OpenGL row order, four channel arrays modelled as one
pixel buffer). -/
def dxt5_decompress (w h : Nat) (data : List Nat) : Except String (List Pixel) :=
  if w % 4 ≠ 0 ∨ h % 4 ≠ 0 then
    .error "DXT - Unexpected resolution"
  else if data.length < 16 * ((h / 4) * (w / 4)) then
    .error "DXT - truncated block data"
  else
    .ok (applyWrites
      (quadGen (h / 4) (w / 4)
        (fun brow bcol row col => (h - brow * 4 - row - 1) * w + (bcol * 4 + col))
        (fun brow bcol row col =>
          dxt5_blockPixel_c (dxt5_block_a0 data (brow * (w / 4) + bcol))
            (dxt5_block_a1 data (brow * (w / 4) + bcol))
            (dxt5_block_atable data (brow * (w / 4) + bcol))
            (dxt5_block_v0 data (brow * (w / 4) + bcol))
            (dxt5_block_v1 data (brow * (w / 4) + bcol))
            (dxt5_block_table data (brow * (w / 4) + bcol)) (row * 4 + col)))
      (List.replicate (w * h) (0, 0, 0, 0)))

/-- C8.  All four DXT decoders reject every width/height pair in which
either dimension is not a multiple of 4, with the resolution error raised
by the precondition check before any input byte is consumed or any output
produced: the error is the same for every `data`. -/
theorem dxt_resolution_precondition (w h : Nat) (data : List Nat)
    (hwh : w % 4 ≠ 0 ∨ h % 4 ≠ 0) :
    decode_dxt1 w h data = .error "DXT - Unexpected resolution"
      ∧ decode_dxt5 w h data = .error "DXT - Unexpected resolution"
      ∧ dxt1_decompress w h data = .error "DXT - Unexpected resolution"
      ∧ dxt5_decompress w h data = .error "DXT - Unexpected resolution" := by
  refine ⟨?_, ?_, ?_, ?_⟩ <;>
    simp only [decode_dxt1, decode_dxt5, dxt1_decompress, dxt5_decompress,
      if_pos hwh]

/-- C8 witness: width 5, height 4. -/
theorem dxt_resolution_precondition_witness :
    decode_dxt1 5 4 [] = .error "DXT - Unexpected resolution"
      ∧ decode_dxt5 5 4 [] = .error "DXT - Unexpected resolution"
      ∧ dxt1_decompress 5 4 [] = .error "DXT - Unexpected resolution"
      ∧ dxt5_decompress 5 4 [] = .error "DXT - Unexpected resolution" :=
  dxt_resolution_precondition 5 4 [] (by decide)

/-! ## Row order relation between the two decoder families -/

theorem getD_replicate {α : Type} (n : Nat) (a : α) (i : Nat) :
    (List.replicate n a).getD i a = a := by
  rw [List.getD_eq_getElem?_getD]
  cases h : (List.replicate n a)[i]? with
  | none => rfl
  | some b =>
    have hm : b ∈ List.replicate n a := by
      have := List.getElem?_eq_some_iff.mp h
      obtain ⟨hlt, hget⟩ := this
      rw [← hget]
      exact List.getElem_mem _
    rw [List.eq_of_mem_replicate hm]
    rfl

theorem idx_lt (a b w h : Nat) (ha : a < h) (hb : b < w) : a * w + b < w * h := by
  calc a * w + b < a * w + w := by omega
    _ = (a + 1) * w := by ring
    _ ≤ h * w := Nat.mul_le_mul_right w (by omega)
    _ = w * h := Nat.mul_comm h w

theorem encIdx_lt {w h br bc r c : Nat} (hbr : br < h / 4) (hbc : bc < w / 4)
    (hr : r < 4) (hc : c < 4) : (br * 4 + r) * w + (bc * 4 + c) < w * h := by
  have h4h : h / 4 * 4 ≤ h := Nat.div_mul_le_self h 4
  have h4w : w / 4 * 4 ≤ w := Nat.div_mul_le_self w 4
  exact idx_lt _ _ _ _ (by omega) (by omega)

/-- Vertical flip on flat row-major pixel indices. -/
def flipIdx (w h i : Nat) : Nat := (h - 1 - i / w) * w + i % w

theorem flipIdx_coords (w h R C : Nat) (hC : C < w) :
    flipIdx w h (R * w + C) = (h - 1 - R) * w + C := by
  have hw : 0 < w := by omega
  unfold flipIdx
  rw [show R * w + C = C + w * R from by ring]
  rw [Nat.add_mul_div_left C R hw, Nat.add_mul_mod_self_left]
  rw [Nat.div_eq_of_lt hC, Nat.mod_eq_of_lt hC, Nat.zero_add]

theorem flipIdx_lt (w h p : Nat) (hh : 0 < h) (hw : 0 < w) :
    flipIdx w h p < w * h := by
  unfold flipIdx
  have hx : h - 1 - p / w ≤ h - 1 := Nat.sub_le _ _
  exact idx_lt _ _ _ _ (by omega) (Nat.mod_lt p hw)

theorem flipIdx_inj (w h p q : Nat) (hp : p < w * h) (hq : q < w * h)
    (hfe : flipIdx w h p = flipIdx w h q) : p = q := by
  have hw : 0 < w := by
    by_contra hcon
    have hw0 : w = 0 := by omega
    subst hw0
    simp at hp
  have hcm : w * h = h * w := Nat.mul_comm w h
  have hpd : p / w < h := by
    rw [Nat.div_lt_iff_lt_mul hw]
    omega
  have hqd : q / w < h := by
    rw [Nat.div_lt_iff_lt_mul hw]
    omega
  have flipDiv : ∀ i : Nat, flipIdx w h i / w = h - 1 - i / w := by
    intro i
    unfold flipIdx
    rw [show (h - 1 - i / w) * w + i % w = i % w + w * (h - 1 - i / w) from by ring]
    rw [Nat.add_mul_div_left _ _ hw, Nat.div_eq_of_lt (Nat.mod_lt i hw), Nat.zero_add]
  have flipMod : ∀ i : Nat, flipIdx w h i % w = i % w := by
    intro i
    unfold flipIdx
    rw [show (h - 1 - i / w) * w + i % w = i % w + (h - 1 - i / w) * w from by ring]
    rw [Nat.add_mul_mod_self_right, Nat.mod_eq_of_lt (Nat.mod_lt i hw)]
  have e1 : h - 1 - p / w = h - 1 - q / w := by
    calc h - 1 - p / w = flipIdx w h p / w := (flipDiv p).symm
      _ = flipIdx w h q / w := by rw [hfe]
      _ = h - 1 - q / w := flipDiv q
  have e2 : p % w = q % w := by
    calc p % w = flipIdx w h p % w := (flipMod p).symm
      _ = flipIdx w h q % w := by rw [hfe]
      _ = q % w := flipMod q
  have e3 : p / w = q / w := by omega
  have e4 : w * (p / w) = w * (q / w) := by rw [e3]
  have hdp := Nat.div_add_mod p w
  have hdq := Nat.div_add_mod q w
  omega

theorem quadGen_mem {A B : Nat} {idx : Nat → Nat → Nat → Nat → Nat}
    {val : Nat → Nat → Nat → Nat → Pixel} {iv : Nat × Pixel}
    (h : iv ∈ quadGen A B idx val) :
    ∃ br bc r c, br < A ∧ bc < B ∧ r < 4 ∧ c < 4
      ∧ iv = (idx br bc r c, val br bc r c) := by
  simp only [quadGen, List.mem_flatMap, List.mem_map, List.mem_range] at h
  obtain ⟨br, hbr, bc, hbc, r, hr, c, hc, heq⟩ := h
  exact ⟨br, bc, r, c, hbr, hbc, hr, hc, heq.symm⟩

theorem quadGen_map_idx (A B : Nat) (idx1 idx2 : Nat → Nat → Nat → Nat → Nat)
    (val : Nat → Nat → Nat → Nat → Pixel) (f : Nat → Nat)
    (hidx : ∀ br, br < A → ∀ bc, bc < B → ∀ r, r < 4 → ∀ c, c < 4 →
      f (idx1 br bc r c) = idx2 br bc r c) :
    (quadGen A B idx1 val).map (fun iv => (f iv.1, iv.2))
      = quadGen A B idx2 val := by
  unfold quadGen
  rw [List.map_flatMap]
  apply List.flatMap_congr
  intro br hbr
  rw [List.map_flatMap]
  apply List.flatMap_congr
  intro bc hbc
  rw [List.map_flatMap]
  apply List.flatMap_congr
  intro r hr
  rw [List.map_map]
  apply List.map_congr_left
  intro c hc
  simp only [Function.comp_apply]
  rw [hidx br (List.mem_range.mp hbr) bc (List.mem_range.mp hbc)
    r (List.mem_range.mp hr) c (List.mem_range.mp hc)]

theorem applyWrites_map_getD (f : Nat → Nat) (L : Nat)
    (hinj : ∀ p q, p < L → q < L → f p = f q → p = q)
    (hfL : ∀ p, p < L → f p < L) :
    ∀ (ws : List (Nat × Pixel)) (B1 B2 : List Pixel),
      B1.length = L → B2.length = L →
      (∀ iv ∈ ws, iv.1 < L) →
      (∀ p, p < L → B2.getD (f p) (0, 0, 0, 0) = B1.getD p (0, 0, 0, 0)) →
      ∀ p, p < L →
        (applyWrites (ws.map (fun iv => (f iv.1, iv.2))) B2).getD (f p) (0, 0, 0, 0)
          = (applyWrites ws B1).getD p (0, 0, 0, 0) := by
  intro ws
  induction ws with
  | nil =>
    intro B1 B2 h1 h2 hw hrel p hp
    exact hrel p hp
  | cons iv t ih =>
    intro B1 B2 h1 h2 hw hrel p hp
    obtain ⟨i, v⟩ := iv
    have hi : i < L := hw (i, v) (List.mem_cons_self _ _)
    simp only [applyWrites, List.map_cons, List.foldl_cons]
    refine ih (B1.set i v) (B2.set (f i) v)
      (by rw [List.length_set, h1]) (by rw [List.length_set, h2])
      (fun iv2 hm => hw iv2 (List.mem_cons_of_mem _ hm))
      (fun q hq => ?_) p hp
    by_cases hqi : q = i
    · subst hqi
      rw [List.getD_eq_getElem?_getD, List.getD_eq_getElem?_getD]
      rw [List.getElem?_set_self (by rw [h2]; exact hfL q hq)]
      rw [List.getElem?_set_self (by rw [h1]; exact hi)]
    · have hfqi : f i ≠ f q := fun hfe => hqi (hinj q i hq hi hfe.symm)
      rw [List.getD_eq_getElem?_getD, List.getD_eq_getElem?_getD]
      rw [List.getElem?_set_ne hfqi, List.getElem?_set_ne (fun hie => hqi hie.symm)]
      rw [← List.getD_eq_getElem?_getD, ← List.getD_eq_getElem?_getD]
      exact hrel q hq

/-- Core row-flip relation: for the same block values, the bottom-up write
pattern of the `compression.py` decoders places at flat position
`(h-1-R)*w + C` exactly the pixel the top-down write pattern of
`paa/_encoding.py` places at `R*w + C`. -/
theorem dxt_flip_getD (w h : Nat) (val : Nat → Nat → Nat → Nat → Pixel)
    (R C : Nat) (hR : R < h) (hC : C < w) :
    (applyWrites (quadGen (h / 4) (w / 4)
        (fun br bc r c => (h - br * 4 - r - 1) * w + (bc * 4 + c)) val)
      (List.replicate (w * h) (0, 0, 0, 0))).getD ((h - 1 - R) * w + C) (0, 0, 0, 0)
      = (applyWrites (quadGen (h / 4) (w / 4)
          (fun br bc r c => (br * 4 + r) * w + (bc * 4 + c)) val)
        (List.replicate (w * h) (0, 0, 0, 0))).getD (R * w + C) (0, 0, 0, 0) := by
  have hw0 : 0 < w := by omega
  have hh0 : 0 < h := by omega
  have hmap : (quadGen (h / 4) (w / 4)
      (fun br bc r c => (br * 4 + r) * w + (bc * 4 + c)) val).map
        (fun iv => (flipIdx w h iv.1, iv.2))
      = quadGen (h / 4) (w / 4)
          (fun br bc r c => (h - br * 4 - r - 1) * w + (bc * 4 + c)) val := by
    apply quadGen_map_idx
    intro br hbr bc hbc r hr c hc
    have h4h : h / 4 * 4 ≤ h := Nat.div_mul_le_self h 4
    have h4w : w / 4 * 4 ≤ w := Nat.div_mul_le_self w 4
    rw [flipIdx_coords w h (br * 4 + r) (bc * 4 + c) (by omega)]
    congr 2
    omega
  rw [← hmap]
  have hflip : flipIdx w h (R * w + C) = (h - 1 - R) * w + C :=
    flipIdx_coords w h R C hC
  rw [← hflip]
  refine applyWrites_map_getD (flipIdx w h) (w * h)
    (fun p q hp2 hq2 hfe => flipIdx_inj w h p q hp2 hq2 hfe)
    (fun p _ => flipIdx_lt w h p hh0 hw0)
    _ _ _ (List.length_replicate _ _) (List.length_replicate _ _)
    (fun iv hm => ?_) (fun q _ => ?_) (R * w + C) (idx_lt _ _ _ _ hR hC)
  · obtain ⟨br, bc, r, c, hbr, hbc, hr, hc, heq⟩ := quadGen_mem hm
    rw [heq]
    exact encIdx_lt hbr hbc hr hc
  · rw [getD_replicate, getD_replicate]

/-- C10.  For block-aligned dimensions and the same input bytes, the two
DXT1 implementations compute identical per-texel pixels up to a vertical
flip: the pixel of `decode_dxt1` at row `R`, column `C` equals the pixel
of `dxt1_decompress` at row `h-1-R`, column `C` (both before any `uint8`
quantisation); the same relation holds between `decode_dxt5` and
`dxt5_decompress`. -/
theorem dxt_row_order_relation (w h : Nat) (data : List Nat) :
    (∀ P Q, decode_dxt1 w h data = .ok P → dxt1_decompress w h data = .ok Q →
      ∀ R C, R < h → C < w →
        Q.getD ((h - 1 - R) * w + C) (0, 0, 0, 0) = P.getD (R * w + C) (0, 0, 0, 0))
    ∧ (∀ P Q, decode_dxt5 w h data = .ok P → dxt5_decompress w h data = .ok Q →
      ∀ R C, R < h → C < w →
        Q.getD ((h - 1 - R) * w + C) (0, 0, 0, 0) = P.getD (R * w + C) (0, 0, 0, 0)) := by
  constructor
  · intro P Q hP hQ R C hR hC
    unfold decode_dxt1 at hP
    split at hP
    · exact Except.noConfusion hP
    · split at hP
      · exact Except.noConfusion hP
      · rename_i hcond1 hcond2
        unfold dxt1_decompress at hQ
        rw [if_neg hcond1, if_neg hcond2] at hQ
        simp only [Except.ok.injEq] at hP hQ
        rw [← hP, ← hQ]
        exact dxt_flip_getD w h _ R C hR hC
  · intro P Q hP hQ R C hR hC
    unfold decode_dxt5 at hP
    split at hP
    · exact Except.noConfusion hP
    · split at hP
      · exact Except.noConfusion hP
      · rename_i hcond1 hcond2
        unfold dxt5_decompress at hQ
        rw [if_neg hcond1, if_neg hcond2] at hQ
        simp only [Except.ok.injEq] at hP hQ
        rw [← hP, ← hQ]
        exact dxt_flip_getD w h _ R C hR hC

/-- C10 witness: a 4x4 DXT1 block (all transparent-black texels, so the
buffers contain only literal pixels) and a 4x4 DXT5 block, each decoded by
both implementations and compared at mirrored rows. -/
theorem dxt_row_order_relation_witness :
    ((List.replicate 16 ((0 : ℚ), (0 : ℚ), (0 : ℚ), (0 : ℚ))).getD
        ((4 - 1 - 0) * 4 + 0) (0, 0, 0, 0)
      = (List.replicate 16 ((0 : ℚ), (0 : ℚ), (0 : ℚ), (0 : ℚ))).getD
        (0 * 4 + 0) (0, 0, 0, 0))
    ∧ ((List.replicate 16 ((0 : ℚ), (0 : ℚ), (0 : ℚ), (0 : ℚ))).getD
        ((4 - 1 - 1) * 4 + 2) (0, 0, 0, 0)
      = (List.replicate 16 ((0 : ℚ), (0 : ℚ), (0 : ℚ), (0 : ℚ))).getD
        (1 * 4 + 2) (0, 0, 0, 0)) :=
  ⟨(dxt_row_order_relation 4 4 [0, 0, 0, 0, 255, 255, 255, 255]).1
      (List.replicate 16 (0, 0, 0, 0)) (List.replicate 16 (0, 0, 0, 0))
      rfl rfl 0 0 (by decide) (by decide),
    (dxt_row_order_relation 4 4
        [0, 0, 182, 109, 219, 182, 109, 219, 0, 0, 0, 0, 255, 255, 255, 255]).2
      (List.replicate 16 (0, 0, 0, 0)) (List.replicate 16 (0, 0, 0, 0))
      rfl rfl 1 2 (by decide) (by decide)⟩

/-- C4 counterexample: a DXT1 block with equal 16-bit endpoints
(`v0 = v1 = 0xFFFF`) and 2-bit code 2 decodes to the opaque endpoint
colour `(1, 1, 1, 1)`, not to fully transparent black; the claim that
codes 2 and 3 both decode to transparent black is false. -/
theorem dxt1_equal_endpoints_cex :
    dxt1_blockPixel 65535 65535 2 0 = (1, 1, 1, 1)
      ∧ ((2 : Nat) >>> (2 * 0)) &&& 3 = 2
      ∧ ¬ (∀ v0 v1 table pix : Nat, v0 = v1 → pix < 16 →
          ((table >>> (2 * pix)) &&& 3 = 2 ∨ (table >>> (2 * pix)) &&& 3 = 3) →
          dxt1_blockPixel v0 v1 table pix = (0, 0, 0, 0)) := by
  have e0 : ((2 : Nat) >>> (2 * 0)) &&& 3 = 2 := by decide
  have er : (65535 : Nat) >>> 11 = 31 := by decide
  have eg : ((65535 : Nat) >>> 5) &&& 63 = 63 := by decide
  have eb : (65535 : Nat) &&& 31 = 31 := by decide
  have hpx : dxt1_blockPixel 65535 65535 2 0 = (1, 1, 1, 1) := by
    simp only [dxt1_blockPixel, e0, rgb565_r, rgb565_g, rgb565_b]
    rw [if_neg (lt_irrefl 65535)]
    rw [er, eg, eb]
    norm_num
  refine ⟨hpx, e0, fun hcl => ?_⟩
  have h2 := hcl 65535 65535 2 0 rfl (by decide) (Or.inl e0)
  rw [hpx] at h2
  have h3 : (1 : ℚ) = 0 := congrArg Prod.fst h2
  exact one_ne_zero h3

/-- C4 (amended).  For a DXT1 block with equal packed endpoints, every
texel with 2-bit code 0, 1 or 2 decodes to the same colour (the shared
endpoint colour, fully opaque) and every texel with code 3 decodes to
fully transparent black; both implementations compute the same per-texel
values. -/
theorem dxt1_equal_endpoints_decode (v0 v1 table pix : Nat) (hv : v0 = v1)
    (hp : pix < 16) :
    (((table >>> (2 * pix)) &&& 3 ≠ 3 →
        dxt1_blockPixel v0 v1 table pix
          = (rgb565_r v0, rgb565_g v0, rgb565_b v0, 1))
      ∧ ((table >>> (2 * pix)) &&& 3 = 3 →
        dxt1_blockPixel v0 v1 table pix = (0, 0, 0, 0)))
      ∧ dxt1_blockPixel_c v0 v1 table pix = dxt1_blockPixel v0 v1 table pix := by
  subst hv
  refine ⟨⟨?_, ?_⟩, rfl⟩
  · intro hne
    have h3 : (table >>> (2 * pix)) &&& 3 ≤ 3 := Nat.and_le_right
    simp only [dxt1_blockPixel]
    rw [if_neg (lt_irrefl v0)]
    generalize hc : (table >>> (2 * pix)) &&& 3 = c at hne h3 ⊢
    interval_cases c
    · rfl
    · rfl
    · simp only [Prod.mk.injEq]
      refine ⟨by ring, by ring, by ring, trivial⟩
    · exact absurd rfl hne
  · intro h3
    simp only [dxt1_blockPixel, h3]
    rw [if_neg (lt_irrefl v0)]

/-- C4 (amended) witness: code 3 at the equal-endpoint block `0xFFFF`. -/
theorem dxt1_equal_endpoints_decode_witness :
    ((((3 : Nat) >>> (2 * 0)) &&& 3 ≠ 3 →
        dxt1_blockPixel 65535 65535 3 0
          = (rgb565_r 65535, rgb565_g 65535, rgb565_b 65535, 1))
      ∧ (((3 : Nat) >>> (2 * 0)) &&& 3 = 3 →
        dxt1_blockPixel 65535 65535 3 0 = (0, 0, 0, 0)))
      ∧ dxt1_blockPixel_c 65535 65535 3 0 = dxt1_blockPixel 65535 65535 3 0 :=
  dxt1_equal_endpoints_decode 65535 65535 3 0 rfl (by decide)

/-- C5 (code evaluation at the failing input).  A DXT5 block whose colour
endpoints satisfy `v0 ≤ v1` (here `v0 = 0`, `v1 = 0xFFFF`) with colour
code 2 decodes — in both implementations — to the midpoint colour
`(1/2, 1/2, 1/2)` (alpha from the alpha block), not to the 4-colour ramp
blend `(2/3)·c0 + (1/3)·c1 = 1/3` that the DXT5/BC3 algorithm named by the
docstrings prescribes regardless of endpoint ordering. -/
theorem dxt5_color_ramp_bug_eval :
    dxt5_blockPixel 0 0 0 0 65535 2 0 = ((1 : ℚ)/2, (1 : ℚ)/2, (1 : ℚ)/2, 0)
      ∧ dxt5_blockPixel_c 0 0 0 0 65535 2 0 = ((1 : ℚ)/2, (1 : ℚ)/2, (1 : ℚ)/2, 0)
      ∧ (1 : ℚ)/2 ≠ (2/3 : ℚ) * rgb565_r 0 + (1/3 : ℚ) * rgb565_r 65535 := by
  have e0 : ((2 : Nat) >>> (2 * 0)) &&& 3 = 2 := by decide
  have ea : ((0 : Nat) >>> (3 * 0)) &&& 7 = 0 := by decide
  have er : (65535 : Nat) >>> 11 = 31 := by decide
  have eg : ((65535 : Nat) >>> 5) &&& 63 = 63 := by decide
  have eb : (65535 : Nat) &&& 31 = 31 := by decide
  have er0 : (0 : Nat) >>> 11 = 0 := by decide
  have eg0 : ((0 : Nat) >>> 5) &&& 63 = 0 := by decide
  have eb0 : (0 : Nat) &&& 31 = 0 := by decide
  have h1 : dxt5_blockPixel 0 0 0 0 65535 2 0
      = ((1 : ℚ)/2, (1 : ℚ)/2, (1 : ℚ)/2, 0) := by
    simp only [dxt5_blockPixel, dxt5_alpha, e0, ea, rgb565_r, rgb565_g, rgb565_b]
    rw [if_neg (lt_irrefl 0), if_neg (show ¬ (65535 : Nat) < 0 from by omega)]
    rw [er, eg, eb, er0, eg0, eb0]
    norm_num
  have hcc : dxt5_blockPixel_c = dxt5_blockPixel := rfl
  refine ⟨h1, by rw [hcc]; exact h1, ?_⟩
  simp only [rgb565_r, er, er0]
  norm_num


/-! ## LZ-Flag (LZSS-style) decompressor — modelled from the spec

`decompress_lz_flag` is not present under `src/` (the spec describes it in
§4.2 and lists it in the function surface of §6); the definitions below
follow the spec's words: flag bytes processed LSB first, literal copies for
set bits, 12-bit-offset/4-bit-length backreferences for clear bits, the
fixed filler byte 0x20 for references reaching before the start of the
output, termination exactly at the expected length (even mid-flag-byte),
and a trailing little-endian 4-byte checksum compared against a running
byte sum (unsigned mod 2^32, or signed folded into a 32-bit signed value,
selected by the caller's flag). -/

/-- Modelled from the spec: a byte interpreted as a signed 8-bit value for
the signed checksum variant. -/
def toSigned8 (b : Nat) : Int := if b < 128 then (b : Int) else (b : Int) - 256

/-- Modelled from the spec: folding an integer into a 32-bit signed value. -/
def toSigned32 (x : Int) : Int := (x + 2 ^ 31) % 2 ^ 32 - 2 ^ 31

/-- Modelled from the spec: the unsigned running checksum — a plain byte
sum mod 2^32. -/
def lzss_checksum_unsigned (out : List Nat) : Nat :=
  (out.foldl (fun a b => a + b) 0) % 2 ^ 32

/-- Modelled from the spec: the signed running checksum — a signed-byte sum
folded into a 32-bit signed value. -/
def lzss_checksum_signed (out : List Nat) : Int :=
  toSigned32 (out.foldl (fun a b => a + toSigned8 b) 0)

/-- Four little-endian bytes (the trailing checksum field). -/
def read_le32 : List Nat → Option (Nat × List Nat)
  | a :: b :: c :: d :: rest =>
    some (a + (b <<< 8) + (c <<< 16) + (d <<< 24), rest)
  | _ => none

/-- Modelled from the spec: the byte-by-byte backreference copy of the
LZ-Flag scheme.  `start` is the (possibly negative) source position of the
first byte; negative positions produce the fixed filler byte 0x20, and the
copy reads the growing buffer so overlapping copies tile.  The copy stops
early once the output reaches the expected length. -/
def lzssCopy (expected : Nat) : Int → Nat → List Nat → List Nat
  | _, 0, out => out
  | start, n + 1, out =>
    if expected ≤ out.length then out
    else
      lzssCopy expected (start + 1) n
        (out ++ [if start < 0 then 32 else out.getD start.toNat 32])

/-- Modelled from the spec: one flag byte governs up to 8 units, LSB first
(`k` counts the remaining bits); bit set → one literal byte, bit clear →
a 2-byte backreference with 12-bit offset (low byte plus high nibble of the
second byte) and length = low nibble + 3; processing stops once the output
reaches the expected length, even mid-flag-byte. -/
def lzssGroup (expected : Nat) :
    Nat → Nat → List Nat → List Nat → Except String (List Nat × List Nat)
  | _, 0, out, inp => .ok (out, inp)
  | flags, k + 1, out, inp =>
    if expected ≤ out.length then .ok (out, inp)
    else if flags &&& 1 = 1 then
      match inp with
      | [] => .error "LZSS - truncated stream (literal)"
      | b :: inp1 => lzssGroup expected (flags >>> 1) k (out ++ [b]) inp1
    else
      match inp with
      | b1 :: b2 :: inp1 =>
        lzssGroup expected (flags >>> 1) k
          (lzssCopy expected
            ((out.length : Int) - ((b1 + ((b2 >>> 4) <<< 8) : Nat) : Int))
            ((b2 &&& 15) + 3) out) inp1
      | _ => .error "LZSS - truncated stream (backreference)"

/-- Modelled from the spec: the main LZ-Flag loop — read one flag byte,
process its 8 units, repeat until the output reaches the expected length
(fueled; each iteration consumes at least the flag byte). -/
def lzssRun (expected : Nat) :
    Nat → List Nat → List Nat → Except String (List Nat × List Nat)
  | 0, _, _ => .error "LZSS - fuel exhausted"
  | fuel + 1, out, inp =>
    if expected ≤ out.length then .ok (out, inp)
    else
      match inp with
      | [] => .error "LZSS - truncated stream (flag byte)"
      | flags :: inp1 =>
        match lzssGroup expected flags 8 out inp1 with
        | .error m => .error m
        | .ok (out1, inp2) => lzssRun expected fuel out1 inp2

/-- Modelled from the spec: `decompress_lz_flag(input, expected_length,
checksum_signed)` — produce exactly `expected` output bytes, then read the
trailing 4-byte little-endian checksum and compare it against the running
sum over all output bytes (the variant selected by `signed`); a mismatch
is a fatal checksum error, otherwise the consumed byte count and the
output are returned. -/
def decompress_lz_flag (input : List Nat) (expected : Nat) (signed : Bool) :
    Except String (Nat × List Nat) :=
  match lzssRun expected (input.length + 1) [] input with
  | .error m => .error m
  | .ok (out, rest) =>
    match read_le32 rest with
    | none => .error "LZSS - truncated checksum"
    | some (stored, rest1) =>
      if signed then
        if toSigned32 (stored : Int) = lzss_checksum_signed out then
          .ok (input.length - rest1.length, out)
        else .error "LZSS - checksum mismatch"
      else
        if stored = lzss_checksum_unsigned out then
          .ok (input.length - rest1.length, out)
        else .error "LZSS - checksum mismatch"

theorem lzssCopy_le (expected : Nat) :
    ∀ (start : Int) (n : Nat) (out : List Nat), out.length ≤ expected →
      (lzssCopy expected start n out).length ≤ expected := by
  intro start n
  induction n generalizing start with
  | zero => intro out h; exact h
  | succ m ih =>
    intro out h
    rw [lzssCopy]
    split
    · exact h
    · rename_i hlt
      refine ih (start + 1) _ ?_
      simp only [List.length_append, List.length_cons, List.length_nil]
      omega

theorem lzssGroup_le (expected : Nat) :
    ∀ (k flags : Nat) (out inp out1 inp1 : List Nat), out.length ≤ expected →
      lzssGroup expected flags k out inp = .ok (out1, inp1) →
      out1.length ≤ expected := by
  intro k
  induction k with
  | zero =>
    intro flags out inp out1 inp1 h hg
    simp only [lzssGroup, Except.ok.injEq, Prod.mk.injEq] at hg
    rw [← hg.1]
    exact h
  | succ m ih =>
    intro flags out inp out1 inp1 h hg
    simp only [lzssGroup] at hg
    split at hg
    · simp only [Except.ok.injEq, Prod.mk.injEq] at hg
      rw [← hg.1]
      exact h
    · rename_i hguard
      split at hg
      · cases inp with
        | nil => exact Except.noConfusion hg
        | cons b inp1x =>
          refine ih _ _ _ _ _ ?_ hg
          simp only [List.length_append, List.length_cons, List.length_nil]
          omega
      · cases inp with
        | nil => exact Except.noConfusion hg
        | cons b1 t =>
          cases t with
          | nil => exact Except.noConfusion hg
          | cons b2 inp1x =>
            exact ih _ _ _ _ _ (lzssCopy_le expected _ _ out h) hg

theorem lzssRun_ok_length (expected : Nat) :
    ∀ (fuel : Nat) (out inp o r : List Nat), out.length ≤ expected →
      lzssRun expected fuel out inp = .ok (o, r) → o.length = expected := by
  intro fuel
  induction fuel with
  | zero =>
    intro out inp o r h hr
    exact Except.noConfusion hr
  | succ m ih =>
    intro out inp o r h hr
    simp only [lzssRun] at hr
    split at hr
    · rename_i hge
      simp only [Except.ok.injEq, Prod.mk.injEq] at hr
      rw [← hr.1]
      omega
    · cases inp with
      | nil => exact Except.noConfusion hr
      | cons flags inp1 =>
        have hr2 : (match lzssGroup expected flags 8 out inp1 with
            | Except.error m2 => Except.error m2
            | Except.ok (out1, inp2) => lzssRun expected m out1 inp2)
            = Except.ok (o, r) := hr
        cases hg : lzssGroup expected flags 8 out inp1 with
        | error m2 => rw [hg] at hr2; exact Except.noConfusion hr2
        | ok p =>
          obtain ⟨out1, inp2⟩ := p
          simp only [hg] at hr2
          exact ih out1 inp2 o r
            (lzssGroup_le expected 8 flags out inp1 out1 inp2 h hg) hr2

/-- C6.  The LZ-Flag decompressor (modelled from the spec, since
`decompress_lz_flag` is absent from `src/`) produces exactly
`expected` output bytes, then reads the trailing 4-byte little-endian
checksum and compares it with the running sum over all output bytes in
the variant selected by the caller's flag: a mismatch is a fatal
checksum error, a match returns the consumed count and the output. -/
theorem lz_flag_checksum (input : List Nat) (expected : Nat) (sgn : Bool)
    (out rest : List Nat) (stored : Nat) (rest1 : List Nat)
    (hrun : lzssRun expected (input.length + 1) [] input = .ok (out, rest))
    (hread : read_le32 rest = some (stored, rest1)) :
    out.length = expected
      ∧ (sgn = false → stored ≠ lzss_checksum_unsigned out →
          decompress_lz_flag input expected sgn = .error "LZSS - checksum mismatch")
      ∧ (sgn = false → stored = lzss_checksum_unsigned out →
          decompress_lz_flag input expected sgn
            = .ok (input.length - rest1.length, out))
      ∧ (sgn = true → toSigned32 (stored : Int) ≠ lzss_checksum_signed out →
          decompress_lz_flag input expected sgn = .error "LZSS - checksum mismatch")
      ∧ (sgn = true → toSigned32 (stored : Int) = lzss_checksum_signed out →
          decompress_lz_flag input expected sgn
            = .ok (input.length - rest1.length, out)) := by
  refine ⟨lzssRun_ok_length expected (input.length + 1) [] input out rest
    (by simp) hrun, ?_, ?_, ?_, ?_⟩
  all_goals intro hs hck
  all_goals subst hs
  all_goals simp only [decompress_lz_flag, hrun, hread]
  · rw [if_neg (by simp : ¬ ((false : Bool) = true)), if_neg hck]
  · rw [if_neg (by simp : ¬ ((false : Bool) = true)), if_pos hck]
  · rw [if_pos trivial, if_neg hck]
  · rw [if_pos trivial, if_pos hck]

/-- C6 witness: one literal byte 65, expected length 1, unsigned checksum
65 stored little-endian. -/
theorem lz_flag_checksum_witness :
    ([65] : List Nat).length = 1
      ∧ (false = false → 65 ≠ lzss_checksum_unsigned [65] →
          decompress_lz_flag [1, 65, 65, 0, 0, 0] 1 false
            = .error "LZSS - checksum mismatch")
      ∧ (false = false → 65 = lzss_checksum_unsigned [65] →
          decompress_lz_flag [1, 65, 65, 0, 0, 0] 1 false
            = .ok ([1, 65, 65, 0, 0, 0].length - ([] : List Nat).length, [65]))
      ∧ (false = true → toSigned32 ((65 : Nat) : Int) ≠ lzss_checksum_signed [65] →
          decompress_lz_flag [1, 65, 65, 0, 0, 0] 1 false
            = .error "LZSS - checksum mismatch")
      ∧ (false = true → toSigned32 ((65 : Nat) : Int) = lzss_checksum_signed [65] →
          decompress_lz_flag [1, 65, 65, 0, 0, 0] 1 false
            = .ok ([1, 65, 65, 0, 0, 0].length - ([] : List Nat).length, [65])) :=
  lz_flag_checksum [1, 65, 65, 0, 0, 0] 1 false [65] [65, 0, 0, 0] 65 [] rfl rfl

end Armaio
